import Mathlib

/-!
Verification of the downloaded-interval reconciliation core of the
`sane-fin-site` repository (`src/sane_fin_site/fin_storage/db.py` and
`src/sane_fin_site/fin_storage/views/api.py`).

Shallow embedding conventions:
* `datetime.date` values are integer day numbers (`Int`), with the Python
  `toordinal` convention: day 1 is 0001-01-01, which is a Monday, and
  `d + 1` is the next calendar day.
* `datetime.datetime` moments are pairs `(date, time-of-day)`; the
  reconciler only ever inspects `moment.date()`, i.e. the first component.
* `Decimal` values are rational numbers.
* Database rows carry their primary key (`id : Nat`); fresh keys are drawn
  from a `nextId` counter, mirroring storage-assigned insertion order.
-/

namespace SaneFin

/-- A `datetime.datetime` moment: `(moment.date(), time-of-day within the date)`. -/
abbrev Moment := Int × Int

/-- Row of the `DownloadedInterval` model (`models.py`): a date range
`[date_from, date_to]`, inclusive on both ends, plus its primary key. -/
structure DownloadedInterval where
  id : Nat
  date_from : Int
  date_to : Int
  deriving DecidableEq, Repr

/-- One history sample handed to `save_history_data`
(`sane_finances.sources.base.InstrumentValue`): a moment and a decimal value. -/
structure InstrumentValue where
  moment : Moment
  value : ℚ
  deriving DecidableEq, Repr

/-- The persistent state of one exporter, as touched by
`DatabaseContext.save_history_data`: its `DownloadedInterval` rows, its
`InstrumentValue` rows keyed by moment, and the next free primary key. -/
structure ExporterState where
  intervals : List DownloadedInterval
  points : List (Moment × ℚ)
  nextId : Nat
  deriving DecidableEq, Repr

/-! ### History-point store (`InstrumentValue` rows) -/

/-- Whether the point store already holds a row with the given moment. -/
def containsMoment (points : List (Moment × ℚ)) (m : Moment) : Bool :=
  points.any (fun p => p.1 = m)

/-- Value stored at a moment, if any (first matching row). -/
def lookupMoment : List (Moment × ℚ) → Moment → Option ℚ
  | [], _ => none
  | p :: rest, m => if p.1 = m then some p.2 else lookupMoment rest m

/-- The list of stored moments, in row order. -/
def momentKeys (points : List (Moment × ℚ)) : List Moment :=
  points.map Prod.fst

/-- `InstrumentValue.objects.update_or_create(exporter, moment, defaults={value})`
(db.py lines 349-352): overwrite the value of an existing row with this
moment, or append a new row. -/
def upsertPoint (points : List (Moment × ℚ)) (m : Moment) (v : ℚ) :
    List (Moment × ℚ) :=
  if containsMoment points m then
    points.map (fun p => if p.1 = m then (m, v) else p)
  else
    points ++ [(m, v)]

/-- `DatabaseContext.update_or_create_history_data` (db.py lines 343-352):
upsert every history item, in order. -/
def update_or_create_history_data (points : List (Moment × ℚ))
    (history_data : List InstrumentValue) : List (Moment × ℚ) :=
  history_data.foldl (fun acc it => upsertPoint acc it.moment it.value) points

/-! ### Reconciler helpers (db.py lines 381-443) -/

/-- `min(history_data, key=lambda it: it.moment.date()).moment.date()`:
the minimum date among the downloaded points, or `none` for empty data. -/
def minHistoryDate : List InstrumentValue → Option Int
  | [] => none
  | it :: rest =>
      some (match minHistoryDate rest with
            | none => it.moment.1
            | some d => min it.moment.1 d)

/-- `max(history_data, key=lambda it: it.moment.date()).moment.date()`:
the maximum date among the downloaded points, or `none` for empty data. -/
def maxHistoryDate : List InstrumentValue → Option Int
  | [] => none
  | it :: rest =>
      some (match maxHistoryDate rest with
            | none => it.moment.1
            | some d => max it.moment.1 d)

/-- Claimed-range widening of `date_from` (db.py lines 390-391): if the data
reaches below the claimed lower bound, the bound becomes the minimum data date. -/
def widen_from (history_data : List InstrumentValue) (date_from : Int) : Int :=
  match minHistoryDate history_data with
  | none => date_from
  | some m => if m < date_from then m else date_from

/-- Claimed-range widening of `date_to` (db.py lines 392-393). -/
def widen_to (history_data : List InstrumentValue) (date_to : Int) : Int :=
  match maxHistoryDate history_data with
  | none => date_to
  | some m => if date_to < m then m else date_to

/-- Affectedness test (db.py line 405): the interval touches or is adjacent
to the claimed range widened by the 1-day buffer
(`date_to >= date_before_from and date_from <= date_after_to`). -/
def isAffected (date_before_from date_after_to : Int)
    (di : DownloadedInterval) : Bool :=
  decide (date_before_from ≤ di.date_to ∧ di.date_from ≤ date_after_to)

/-- The affected sub-list of the stored intervals (db.py lines 401-405). -/
def affectedIntervals (intervals : List DownloadedInterval)
    (date_before_from date_after_to : Int) : List DownloadedInterval :=
  intervals.filter (isAffected date_before_from date_after_to)

/-- Pierce test (db.py lines 409-418): some stored interval contains the
given edge date (`date_from <= edge <= date_to`). -/
def pierce (intervals : List DownloadedInterval) (edge : Int) : Bool :=
  intervals.any (fun di => decide (di.date_from ≤ edge ∧ edge ≤ di.date_to))

/-- Minimum `date_from` among a list of intervals
(`min(affected_intervals, key=lambda it: it.date_from).date_from`). -/
def minIntervalFrom : List DownloadedInterval → Option Int
  | [] => none
  | di :: rest =>
      some (match minIntervalFrom rest with
            | none => di.date_from
            | some d => min di.date_from d)

/-- Maximum `date_to` among a list of intervals
(`max(affected_intervals, key=lambda it: it.date_to).date_to`). -/
def maxIntervalTo : List DownloadedInterval → Option Int
  | [] => none
  | di :: rest =>
      some (match maxIntervalTo rest with
            | none => di.date_to
            | some d => max di.date_to d)

/-- Surviving record of a merge (db.py line 435):
`min(affected_intervals, key=lambda it: it.id)` — the first interval with
the lowest primary key. -/
def survivor : List DownloadedInterval → Option DownloadedInterval
  | [] => none
  | di :: rest =>
      some (match survivor rest with
            | none => di
            | some s => if s.id < di.id then s else di)

/-- Whether the merge branch of `save_history_data` executes (db.py line
421): the affected set is non-empty and either the downloaded history is
non-empty or both edges pierce previously downloaded intervals. -/
def merge_performed (intervals : List DownloadedInterval)
    (history_data : List InstrumentValue) (date_from date_to : Int) : Bool :=
  let wf := widen_from history_data date_from
  let wt := widen_to history_data date_to
  let affected := affectedIntervals intervals (wf - 1) (wt + 1)
  !affected.isEmpty &&
    (!history_data.isEmpty || (pierce intervals (wf - 1) && pierce intervals (wt + 1)))

/-- The merged lower bound `min_date_from` of db.py lines 425, 430-431:
`min(date_from, min(affected, key=date_from).date_from)`, adjusted to the
minimum history date when the left edge is not pierced and sticks out. -/
def merged_from (intervals : List DownloadedInterval)
    (history_data : List InstrumentValue) (wf wt : Int) : Int :=
  let affected_intervals := affectedIntervals intervals (wf - 1) (wt + 1)
  let min_date_from := min wf ((minIntervalFrom affected_intervals).getD wf)
  if !pierce intervals (wf - 1) then
    (match minHistoryDate history_data with
     | some mn => if wf < mn then mn else min_date_from
     | none => min_date_from)  -- unreachable: empty history here implies both edges pierce
  else min_date_from

/-- The merged upper bound `max_date_to` of db.py lines 426, 432-433. -/
def merged_to (intervals : List DownloadedInterval)
    (history_data : List InstrumentValue) (wf wt : Int) : Int :=
  let affected_intervals := affectedIntervals intervals (wf - 1) (wt + 1)
  let max_date_to := max wt ((maxIntervalTo affected_intervals).getD wt)
  if !pierce intervals (wt + 1) then
    (match maxHistoryDate history_data with
     | some mx => if mx < wt then mx else max_date_to
     | none => max_date_to)  -- unreachable: empty history here implies both edges pierce
  else max_date_to

/-- Interval-set part of `save_history_data` (db.py lines 395-452), applied
after the claimed range has been widened to `[wf, wt]`.  Returns the new
interval list and the next free primary key. -/
def reconcileIntervals (intervals : List DownloadedInterval) (nextId : Nat)
    (history_data : List InstrumentValue) (wf wt : Int) :
    List DownloadedInterval × Nat :=
  let date_before_from := wf - 1
  let date_after_to := wt + 1
  let affected_intervals := affectedIntervals intervals date_before_from date_after_to
  if affected_intervals.isEmpty then
    -- db.py lines 445-452: create a new interval only if there is history data
    (match minHistoryDate history_data, maxHistoryDate history_data with
     | some mn, some mx => (intervals ++ [⟨nextId, mn, mx⟩], nextId + 1)
     | _, _ => (intervals, nextId))
  else
    let pierce_left := pierce intervals date_before_from
    let pierce_right := pierce intervals date_after_to
    -- db.py line 421: empty history sticking out by any edge means nothing to do
    if !history_data.isEmpty || (pierce_left && pierce_right) then
      let min_date_from := merged_from intervals history_data wf wt
      let max_date_to := merged_to intervals history_data wf wt
      match survivor affected_intervals with
      | none => (intervals, nextId)  -- unreachable: the affected set is non-empty
      | some s =>
          (intervals.filterMap (fun di =>
            if isAffected date_before_from date_after_to di then
              if di.id = s.id then some ⟨di.id, min_date_from, max_date_to⟩ else none
            else some di),
           nextId)
    else
      -- empty history sticking out by some edge: nothing to do
      (intervals, nextId)

/-- `DatabaseContext.save_history_data` (db.py lines 366-454): widen the
claimed range to cover the downloaded data, reconcile the interval set, and
upsert every downloaded point. -/
def save_history_data (st : ExporterState) (history_data : List InstrumentValue)
    (date_from date_to : Int) : ExporterState :=
  let wf := widen_from history_data date_from
  let wt := widen_to history_data date_to
  let r := reconcileIntervals st.intervals st.nextId history_data wf wt
  { intervals := r.1
    points := update_or_create_history_data st.points history_data
    nextId := r.2 }

/-- A finite sequence of `save_history_data` calls against one exporter. -/
def applyCalls (st : ExporterState)
    (calls : List (List InstrumentValue × Int × Int)) : ExporterState :=
  calls.foldl (fun s c => save_history_data s c.1 c.2.1 c.2.2) st

/-! ### Actuality evaluator (db.py lines 163-173) -/

/-- `datetime.date.min` is 0001-01-01, ordinal day 1. -/
def dateMin : Int := 1

/-- `date.isoweekday()` for an ordinal day number: Monday = 1 .. Sunday = 7
(ordinal day 1, 0001-01-01, is a Monday). -/
def isoweekday (day : Int) : Int := (day - 1) % 7 + 1

/-- `max((dt for _, dt in downloaded_intervals), default=datetime.date.min)`
(db.py line 165), over `(date_from, date_to)` pairs. -/
def last_downloaded_date (downloaded_intervals : List (Int × Int)) : Int :=
  match downloaded_intervals with
  | [] => dateMin
  | iv :: rest => rest.foldl (fun acc p => max acc p.2) iv.2

/-- The most recent completed business day (db.py lines 166-172). -/
def last_working_day (today : Int) : Int :=
  if isoweekday today = 1 then today - 3  -- monday: previous friday
  else if isoweekday today = 7 then today - 2  -- sunday: previous friday
  else today - 1

/-- `is_actual` (db.py line 173): the latest downloaded `date_to` reaches
the most recent completed business day. -/
def is_actual (today : Int) (downloaded_intervals : List (Int × Int)) : Bool :=
  decide (last_working_day today ≤ last_downloaded_date downloaded_intervals)

/-! ### Series composer (external `sane_finances.sources.computing` module)

The composer itself is an external dependency of this repository; only its
contract is fixed by the specification (§4.4) and its error handler lives in
this repository (`views/api.py` lines 164-172). -/

/-- `computing.ComposeType`: the binary arithmetic operator of a composition. -/
inductive ComposeType where
  | add
  | subtract
  | multiply
  | divide
  deriving DecidableEq, Repr

/-- An arithmetic exception raised while composing one pair of points
(e.g. `decimal.DivisionByZero`). -/
structure ComposeArithmeticError where
  deriving DecidableEq, Repr

/-- Modelled from the spec: operator semantics of §4.4
(`add = left+right`, `subtract = left-right`, `multiply = left*right`,
`divide = left/right`), failing with an arithmetic error on division by zero. -/
def compose_op (op : ComposeType) (left_value right_value : ℚ) :
    Except ComposeArithmeticError ℚ :=
  match op with
  | ComposeType.add => Except.ok (left_value + right_value)
  | ComposeType.subtract => Except.ok (left_value - right_value)
  | ComposeType.multiply => Except.ok (left_value * right_value)
  | ComposeType.divide =>
      if right_value = 0 then Except.error ⟨⟩ else Except.ok (left_value / right_value)

/-- The error-handler contract of §4.4:
`on_error(exception, operator, timestamp, left_value, right_value) -> decimal`. -/
abbrev ComposeErrorHandler :=
  ComposeArithmeticError → ComposeType → Moment → ℚ → ℚ → ℚ

/-- `JsonComposeDataView._return_stub_error_handler` (api.py lines 165-172):
ignore the failure and return `Decimal(0)`. -/
def return_stub_error_handler (_ex : ComposeArithmeticError) (_op : ComposeType)
    (_moment : Moment) (_left_value _right_value : ℚ) : ℚ :=
  0

/-- Modelled from the spec: the per-timestamp output of the composer of §4.4
applied to already aligned left/right values — the operator's result, or the
handler's return value when the operator fails. -/
def composePoint (op : ComposeType) (on_error : ComposeErrorHandler)
    (moment : Moment) (left_value right_value : ℚ) : ℚ :=
  match compose_op op left_value right_value with
  | Except.ok v => v
  | Except.error ex => on_error ex op moment left_value right_value

/-- Modelled from the spec: `compose` of §4.4 restricted to the aligned
timestamp domain (`computing.build_composed_sorted_history_data` is an
external dependency; alignment of the two resampled series is out of scope
here).  Each aligned timestamp yields exactly one output value, with
arithmetic failures routed through `on_error`. -/
def composeAligned (op : ComposeType) (on_error : ComposeErrorHandler)
    (aligned : List (Moment × ℚ × ℚ)) : List (Moment × ℚ) :=
  aligned.map (fun p => (p.1, composePoint op on_error p.1 p.2.1 p.2.2))

/-! ### JSON API views (`views/api.py`) -/

/-- The outcome of a view's `render_to_response`, abstracted to what the
claims observe: the HTTP error class, an uncaught exception, or a normal
JSON payload carrying its `data` list. -/
inductive HttpResponse where
  | badRequest
  | notFound
  | uncaughtError
  | json (data : List (Moment × ℚ))
  deriving DecidableEq, Repr

/-- `{'yes': True, 'no': False}.get(param, None)` (api.py lines 42, 47,
123, 128), applied to the lower-cased query-parameter string. -/
def parse_bool_param (param : String) : Option Bool :=
  if param = "yes" then some true
  else if param = "no" then some false
  else none

/-- `computing.ComposeType(compose_type_string)` (api.py line 133): look up
the operator by its enum value string; an unknown string raises. -/
def parse_compose_type (s : String) : Option ComposeType :=
  if s = "add" then some ComposeType.add
  else if s = "subtract" then some ComposeType.subtract
  else if s = "multiply" then some ComposeType.multiply
  else if s = "divide" then some ComposeType.divide
  else none

/-- What a view needs of an exporter: its code and its history data mapping. -/
structure ViewExporter where
  unique_code : String
  history_data : List (Moment × ℚ)
  deriving DecidableEq, Repr

/-- `JsonHistoryDataView.render_to_response` (api.py lines 30-90), as a pure
function of the routed request and the store.  `resample` stands for the
external `computing.build_sorted_history_data`; `lookup` is the result of
`get_exporter_by_code` (`none` when `Exporter.DoesNotExist`). -/
def render_history_response
    (resample : List (Moment × ℚ) → Int → Int → Bool → Bool → List (Moment × ℚ))
    (lookup : Option ViewExporter)
    (date_from date_to : Int)
    (intraday_param fill_gaps_param : String) : HttpResponse :=
  match parse_bool_param intraday_param with
  | none => HttpResponse.badRequest
  | some intraday =>
    match parse_bool_param fill_gaps_param with
    | none => HttpResponse.badRequest
    | some fill_gaps =>
      match lookup with
      | none => HttpResponse.notFound
      | some exporter =>
        if date_from > date_to ∨ exporter.history_data.isEmpty then
          HttpResponse.json []
        else
          HttpResponse.json
            (resample exporter.history_data date_from date_to fill_gaps intraday)

/-- `JsonComposeDataView.render_to_response` (api.py lines 108-191), as a
pure function of the routed request and the store.  `composer` stands for
the external `computing.build_composed_sorted_history_data` (it receives the
operator and both histories); an invalid `compose_type` string raises before
the window check (api.py line 133). -/
def render_compose_response
    (composer : ComposeType → List (Moment × ℚ) → List (Moment × ℚ) → Int → Int →
      Bool → Bool → List (Moment × ℚ))
    (lookup1 lookup2 : Option ViewExporter)
    (compose_type_string : String)
    (date_from date_to : Int)
    (intraday_param fill_gaps_param : String) : HttpResponse :=
  match parse_bool_param intraday_param with
  | none => HttpResponse.badRequest
  | some intraday =>
    match parse_bool_param fill_gaps_param with
    | none => HttpResponse.badRequest
    | some fill_gaps =>
      match parse_compose_type compose_type_string with
      | none => HttpResponse.uncaughtError  -- ValueError from ComposeType(...)
      | some compose_type =>
        match lookup1 with
        | none => HttpResponse.notFound
        | some exporter1 =>
          match lookup2 with
          | none => HttpResponse.notFound
          | some exporter2 =>
            if date_from > date_to then
              HttpResponse.json []
            else
              HttpResponse.json
                (composer compose_type exporter1.history_data exporter2.history_data
                  date_from date_to fill_gaps intraday)

/-! ### Derived notions used by the statements -/

/-- Two stored intervals neither overlap nor touch: at least one full day
separates them. -/
def Separated (a b : DownloadedInterval) : Prop :=
  a.date_to + 1 < b.date_from ∨ b.date_to + 1 < a.date_from

/-- The moments carried by a history-data collection, in order. -/
def historyMoments (history_data : List InstrumentValue) : List Moment :=
  history_data.map InstrumentValue.moment

/-- The value of the last item of `history_data` carrying the given moment
(`save_history_data` upserts in iteration order, so the last write wins). -/
def histLastValue : List InstrumentValue → Moment → Option ℚ
  | [], _ => none
  | it :: rest, m =>
      match histLastValue rest m with
      | some v => some v
      | none => if it.moment = m then some it.value else none

/-- The reconciler's state invariant: every stored interval is an ordered
range, primary keys are unique and below the next free key, and intervals
are pairwise separated. -/
def ReconcilerInvariant (st : ExporterState) : Prop :=
  (∀ di ∈ st.intervals, di.date_from ≤ di.date_to) ∧
  (st.intervals.map DownloadedInterval.id).Nodup ∧
  (∀ a ∈ st.intervals, ∀ b ∈ st.intervals, a.id ≠ b.id → Separated a b) ∧
  (∀ di ∈ st.intervals, di.id < st.nextId)

/-! ### Point-store lemmas -/

theorem lookupMoment_eq_none_of_not_mem {points : List (Moment × ℚ)} {m : Moment}
    (h : m ∉ momentKeys points) : lookupMoment points m = none := by
  induction points with
  | nil => rfl
  | cons p rest ih =>
    simp only [momentKeys, List.map_cons, List.mem_cons, not_or] at h
    have hp : ¬ p.1 = m := fun hp => h.1 hp.symm
    show (if p.1 = m then some p.2 else lookupMoment rest m) = none
    rw [if_neg hp]
    exact ih (by simpa [momentKeys] using h.2)

theorem containsMoment_iff_mem {points : List (Moment × ℚ)} {m : Moment} :
    containsMoment points m = true ↔ m ∈ momentKeys points := by
  simp [containsMoment, List.any_eq_true, momentKeys, List.mem_map]

theorem lookupMoment_isSome_of_mem {points : List (Moment × ℚ)} {m : Moment}
    (h : m ∈ momentKeys points) : (lookupMoment points m).isSome = true := by
  induction points with
  | nil => simp [momentKeys] at h
  | cons p rest ih =>
    show (if p.1 = m then some p.2 else lookupMoment rest m).isSome = true
    by_cases hp : p.1 = m
    · simp [hp]
    · rw [if_neg hp]
      apply ih
      simp only [momentKeys, List.map_cons, List.mem_cons] at h
      rcases h with h | h
      · exact absurd h.symm hp
      · simpa [momentKeys] using h

theorem lookupMoment_isSome_iff_contains {points : List (Moment × ℚ)} {m : Moment} :
    (lookupMoment points m).isSome = true ↔ containsMoment points m = true := by
  rw [containsMoment_iff_mem]
  constructor
  · intro h
    by_contra hm
    rw [lookupMoment_eq_none_of_not_mem hm] at h
    simp at h
  · exact lookupMoment_isSome_of_mem

theorem lookupMoment_append (l1 l2 : List (Moment × ℚ)) (m : Moment) :
    lookupMoment (l1 ++ l2) m =
      match lookupMoment l1 m with
      | some v => some v
      | none => lookupMoment l2 m := by
  induction l1 with
  | nil => simp [lookupMoment]
  | cons p rest ih =>
    show (if p.1 = m then some p.2 else lookupMoment (rest ++ l2) m) = _
    by_cases h : p.1 = m
    · simp [lookupMoment, h]
    · simp [lookupMoment, h, ih]

theorem lookupMoment_map_replace (points : List (Moment × ℚ)) (m : Moment) (v : ℚ)
    (m2 : Moment) :
    lookupMoment (points.map (fun p => if p.1 = m then (m, v) else p)) m2 =
      if m2 = m then (if containsMoment points m then some v else none)
      else lookupMoment points m2 := by
  induction points with
  | nil => by_cases h : m2 = m <;> simp [lookupMoment, containsMoment, h]
  | cons p rest ih =>
    by_cases hp : p.1 = m
    · by_cases h2 : m2 = m
      · subst h2
        simp [lookupMoment, containsMoment, List.any_cons, hp]
      · have hm2 : ¬ (m = m2) := fun he => h2 he.symm
        have hp2 : ¬ (p.1 = m2) := by rw [hp]; exact hm2
        simp [lookupMoment, containsMoment, hp, hm2, hp2, ih, h2]
    · by_cases h2 : m2 = m
      · subst h2
        simp [lookupMoment, containsMoment, List.any_cons, hp, ih]
        rw [decide_eq_false hp, Bool.false_or]
      · by_cases hq : p.1 = m2 <;>
          simp [lookupMoment, containsMoment, hp, hq, ih, h2]

theorem lookupMoment_upsertPoint (points : List (Moment × ℚ)) (m : Moment) (v : ℚ)
    (m2 : Moment) :
    lookupMoment (upsertPoint points m v) m2 =
      if m2 = m then some v else lookupMoment points m2 := by
  unfold upsertPoint
  by_cases hc : containsMoment points m
  · simp [hc, lookupMoment_map_replace]
  · simp only [hc, Bool.false_eq_true, if_false, lookupMoment_append]
    by_cases h2 : m2 = m
    · subst h2
      have hnone : lookupMoment points m2 = none :=
        lookupMoment_eq_none_of_not_mem
          (fun hm => hc (containsMoment_iff_mem.mpr hm))
      simp [hnone, lookupMoment]
    · have hm2 : ¬ (m = m2) := fun he => h2 he.symm
      cases hl : lookupMoment points m2 <;>
        simp [hl, lookupMoment, h2, hm2]

theorem momentKeys_upsertPoint_of_contains {points : List (Moment × ℚ)} {m : Moment}
    (v : ℚ) (hc : containsMoment points m = true) :
    momentKeys (upsertPoint points m v) = momentKeys points := by
  unfold upsertPoint
  simp only [hc, if_true, momentKeys, List.map_map]
  apply List.map_congr_left
  intro p _
  by_cases hp : p.1 = m <;> simp [hp]

theorem momentKeys_upsertPoint_of_not_contains {points : List (Moment × ℚ)}
    {m : Moment} (v : ℚ) (hc : containsMoment points m = false) :
    momentKeys (upsertPoint points m v) = momentKeys points ++ [m] := by
  unfold upsertPoint
  simp [hc, momentKeys]

theorem mem_momentKeys_upsertPoint {points : List (Moment × ℚ)} {m : Moment} {v : ℚ}
    {m2 : Moment} (h : m2 ∈ momentKeys points) :
    m2 ∈ momentKeys (upsertPoint points m v) := by
  by_cases hc : containsMoment points m
  · rwa [momentKeys_upsertPoint_of_contains v hc]
  · rw [momentKeys_upsertPoint_of_not_contains v (by simpa using hc)]
    exact List.mem_append_left _ h

theorem containsMoment_upsertPoint_self (points : List (Moment × ℚ)) (m : Moment)
    (v : ℚ) : containsMoment (upsertPoint points m v) m = true := by
  rw [← lookupMoment_isSome_iff_contains, lookupMoment_upsertPoint]
  simp

theorem containsMoment_upsertPoint_of_contains {points : List (Moment × ℚ)}
    {m2 : Moment} (m : Moment) (v : ℚ) (h : containsMoment points m2 = true) :
    containsMoment (upsertPoint points m v) m2 = true :=
  containsMoment_iff_mem.mpr
    (mem_momentKeys_upsertPoint (containsMoment_iff_mem.mp h))

theorem nodup_momentKeys_upsertPoint {points : List (Moment × ℚ)} (m : Moment)
    (v : ℚ) (h : (momentKeys points).Nodup) :
    (momentKeys (upsertPoint points m v)).Nodup := by
  by_cases hc : containsMoment points m
  · rwa [momentKeys_upsertPoint_of_contains v hc]
  · rw [momentKeys_upsertPoint_of_not_contains v (by simpa using hc)]
    have hm : m ∉ momentKeys points := fun hmem => hc (containsMoment_iff_mem.mpr hmem)
    simp [List.nodup_append, h, hm]

theorem mem_upsertPoint_of_ne {points : List (Moment × ℚ)} {p : Moment × ℚ}
    (hp : p ∈ points) {m : Moment} (hne : p.1 ≠ m) (v : ℚ) :
    p ∈ upsertPoint points m v := by
  unfold upsertPoint
  by_cases hc : containsMoment points m
  · simp only [hc, if_true]
    exact List.mem_map.mpr ⟨p, hp, by simp [hne]⟩
  · simp only [hc, Bool.false_eq_true, if_false]
    exact List.mem_append_left _ hp

/-! ### Lemmas about `update_or_create_history_data` -/

theorem update_or_create_history_data_nil (points : List (Moment × ℚ)) :
    update_or_create_history_data points [] = points := rfl

theorem update_or_create_history_data_cons (points : List (Moment × ℚ))
    (it : InstrumentValue) (rest : List InstrumentValue) :
    update_or_create_history_data points (it :: rest) =
      update_or_create_history_data (upsertPoint points it.moment it.value) rest := rfl

theorem mem_update_or_create_of_not_mem_moments {points : List (Moment × ℚ)}
    {p : Moment × ℚ} {history_data : List InstrumentValue}
    (hp : p ∈ points) (hm : p.1 ∉ historyMoments history_data) :
    p ∈ update_or_create_history_data points history_data := by
  induction history_data generalizing points with
  | nil => exact hp
  | cons it rest ih =>
    rw [update_or_create_history_data_cons]
    simp only [historyMoments, List.map_cons, List.mem_cons, not_or] at hm
    exact ih (mem_upsertPoint_of_ne hp hm.1 it.value)
      (by simpa [historyMoments] using hm.2)

theorem mem_momentKeys_update_or_create {points : List (Moment × ℚ)} {m : Moment}
    (history_data : List InstrumentValue) (h : m ∈ momentKeys points) :
    m ∈ momentKeys (update_or_create_history_data points history_data) := by
  induction history_data generalizing points with
  | nil => exact h
  | cons it rest ih =>
    rw [update_or_create_history_data_cons]
    exact ih (mem_momentKeys_upsertPoint h)

theorem lookupMoment_update_or_create (points : List (Moment × ℚ))
    (history_data : List InstrumentValue) (m : Moment) :
    lookupMoment (update_or_create_history_data points history_data) m =
      match histLastValue history_data m with
      | some v => some v
      | none => lookupMoment points m := by
  induction history_data generalizing points with
  | nil => simp [update_or_create_history_data_nil, histLastValue]
  | cons it rest ih =>
    rw [update_or_create_history_data_cons, ih]
    show _ = (match (match histLastValue rest m with
      | some v => some v
      | none => if it.moment = m then some it.value else none) with
      | some v => some v
      | none => lookupMoment points m)
    cases histLastValue rest m with
    | some v => rfl
    | none =>
      rw [lookupMoment_upsertPoint]
      by_cases h : it.moment = m
      · simp [h]
      · have hm : ¬ (m = it.moment) := fun he => h he.symm
        simp [h, hm]

theorem histLastValue_isSome_of_mem {history_data : List InstrumentValue}
    {it : InstrumentValue} (h : it ∈ history_data) :
    (histLastValue history_data it.moment).isSome = true := by
  induction history_data with
  | nil => simp at h
  | cons hd rest ih =>
    show (match histLastValue rest it.moment with
      | some v => some v
      | none => if hd.moment = it.moment then some hd.value else none).isSome = true
    rcases List.mem_cons.mp h with he | hmem
    · cases hv : histLastValue rest it.moment with
      | some v => simp
      | none => simp [he]
    · cases hv : histLastValue rest it.moment with
      | some v => simp
      | none =>
        have := ih hmem
        rw [hv] at this
        simp at this

theorem containsMoment_update_or_create_of_mem {points : List (Moment × ℚ)}
    {history_data : List InstrumentValue} {it : InstrumentValue}
    (h : it ∈ history_data) :
    containsMoment (update_or_create_history_data points history_data) it.moment
      = true := by
  rw [← lookupMoment_isSome_iff_contains, lookupMoment_update_or_create]
  have := histLastValue_isSome_of_mem h
  cases hv : histLastValue history_data it.moment with
  | some v => simp
  | none => rw [hv] at this; simp at this

theorem momentKeys_update_or_create_of_contains {points : List (Moment × ℚ)}
    {history_data : List InstrumentValue}
    (h : ∀ it ∈ history_data, containsMoment points it.moment = true) :
    momentKeys (update_or_create_history_data points history_data)
      = momentKeys points := by
  induction history_data generalizing points with
  | nil => rfl
  | cons it rest ih =>
    rw [update_or_create_history_data_cons]
    rw [ih (fun it2 h2 => containsMoment_upsertPoint_of_contains _ _
      (h it2 (List.mem_cons_of_mem _ h2)))]
    exact momentKeys_upsertPoint_of_contains _ (h it (List.mem_cons_self _ _))

theorem nodup_momentKeys_update_or_create {points : List (Moment × ℚ)}
    (history_data : List InstrumentValue) (h : (momentKeys points).Nodup) :
    (momentKeys (update_or_create_history_data points history_data)).Nodup := by
  induction history_data generalizing points with
  | nil => exact h
  | cons it rest ih =>
    rw [update_or_create_history_data_cons]
    exact ih (nodup_momentKeys_upsertPoint _ _ h)

/-- Extensionality for point stores with unique keys: equal key sequences
and equal lookups force equal stores. -/
theorem points_ext {p q : List (Moment × ℚ)}
    (hk : momentKeys p = momentKeys q)
    (hl : ∀ m, lookupMoment p m = lookupMoment q m)
    (hnd : (momentKeys p).Nodup) : p = q := by
  induction p generalizing q with
  | nil =>
    cases q with
    | nil => rfl
    | cons b bq => simp [momentKeys] at hk
  | cons a ap ih =>
    cases q with
    | nil => simp [momentKeys] at hk
    | cons b bq =>
      simp only [momentKeys, List.map_cons, List.cons.injEq] at hk
      have hkey : a.1 = b.1 := hk.1
      have hvals : a.2 = b.2 := by
        have := hl a.1
        rw [show lookupMoment (a :: ap) a.1 = some a.2 by simp [lookupMoment]] at this
        rw [show lookupMoment (b :: bq) a.1 = some b.2 by simp [lookupMoment, hkey.symm]]
          at this
        exact Option.some.inj this
      simp only [momentKeys, List.map_cons, List.nodup_cons] at hnd
      have htail : ap = bq := by
        apply ih
        · exact hk.2
        · intro m
          by_cases hm : m = a.1
          · subst hm
            rw [lookupMoment_eq_none_of_not_mem hnd.1,
              lookupMoment_eq_none_of_not_mem
                (by simp only [momentKeys]; rw [← hk.2]; exact hnd.1)]
          · have := hl m
            have hma : ¬ (a.1 = m) := fun he => hm he.symm
            have hmb : ¬ (b.1 = m) := fun he => hm (hkey ▸ he.symm)
            rw [show lookupMoment (a :: ap) m = lookupMoment ap m by
                simp [lookupMoment, hma],
              show lookupMoment (b :: bq) m = lookupMoment bq m by
                simp [lookupMoment, hmb]] at this
            exact this
        · exact hnd.2
      exact by rw [Prod.ext hkey hvals, htail]

/-- Upserting the same history twice is the same as upserting it once. -/
theorem update_or_create_history_data_idem {points : List (Moment × ℚ)}
    (history_data : List InstrumentValue) (h : (momentKeys points).Nodup) :
    update_or_create_history_data
        (update_or_create_history_data points history_data) history_data =
      update_or_create_history_data points history_data := by
  apply points_ext
  · apply momentKeys_update_or_create_of_contains
    intro it hit
    exact containsMoment_update_or_create_of_mem hit
  · intro m
    rw [lookupMoment_update_or_create, lookupMoment_update_or_create]
    cases histLastValue history_data m with
    | some v => rfl
    | none => rfl
  · exact nodup_momentKeys_update_or_create _
      (nodup_momentKeys_update_or_create _ h)

/-! ### Lemmas about the reconciler's helper computations -/

theorem minHistoryDate_eq_none_iff {history_data : List InstrumentValue} :
    minHistoryDate history_data = none ↔ history_data = [] := by
  cases history_data with
  | nil => simp [minHistoryDate]
  | cons it rest => simp [minHistoryDate]

theorem maxHistoryDate_eq_none_iff {history_data : List InstrumentValue} :
    maxHistoryDate history_data = none ↔ history_data = [] := by
  cases history_data with
  | nil => simp [maxHistoryDate]
  | cons it rest => simp [maxHistoryDate]

theorem minHistoryDate_cons_none {rest : List InstrumentValue}
    (it : InstrumentValue) (hr : minHistoryDate rest = none) :
    minHistoryDate (it :: rest) = some it.moment.1 := by
  simp only [minHistoryDate]
  rw [hr]

theorem minHistoryDate_cons_some {rest : List InstrumentValue} {d : Int}
    (it : InstrumentValue) (hr : minHistoryDate rest = some d) :
    minHistoryDate (it :: rest) = some (min it.moment.1 d) := by
  simp only [minHistoryDate]
  rw [hr]

theorem maxHistoryDate_cons_none {rest : List InstrumentValue}
    (it : InstrumentValue) (hr : maxHistoryDate rest = none) :
    maxHistoryDate (it :: rest) = some it.moment.1 := by
  simp only [maxHistoryDate]
  rw [hr]

theorem maxHistoryDate_cons_some {rest : List InstrumentValue} {d : Int}
    (it : InstrumentValue) (hr : maxHistoryDate rest = some d) :
    maxHistoryDate (it :: rest) = some (max it.moment.1 d) := by
  simp only [maxHistoryDate]
  rw [hr]

theorem minHistoryDate_le {history_data : List InstrumentValue} {mn : Int}
    (h : minHistoryDate history_data = some mn) :
    ∀ it ∈ history_data, mn ≤ it.moment.1 := by
  induction history_data generalizing mn with
  | nil => simp [minHistoryDate] at h
  | cons hd rest ih =>
    intro it hit
    cases hr : minHistoryDate rest with
    | none =>
      rw [minHistoryDate_cons_none hd hr] at h
      simp only [Option.some.injEq] at h
      rcases List.mem_cons.mp hit with he | hmem
      · subst he; omega
      · rw [minHistoryDate_eq_none_iff] at hr
        subst hr; simp at hmem
    | some d =>
      rw [minHistoryDate_cons_some hd hr] at h
      simp only [Option.some.injEq] at h
      rcases List.mem_cons.mp hit with he | hmem
      · subst he; omega
      · have := ih hr it hmem
        omega

theorem minHistoryDate_mem {history_data : List InstrumentValue} {mn : Int}
    (h : minHistoryDate history_data = some mn) :
    ∃ it ∈ history_data, it.moment.1 = mn := by
  induction history_data generalizing mn with
  | nil => simp [minHistoryDate] at h
  | cons hd rest ih =>
    cases hr : minHistoryDate rest with
    | none =>
      rw [minHistoryDate_cons_none hd hr] at h
      simp only [Option.some.injEq] at h
      exact ⟨hd, List.mem_cons_self _ _, by omega⟩
    | some d =>
      rw [minHistoryDate_cons_some hd hr] at h
      simp only [Option.some.injEq] at h
      rcases le_total hd.moment.1 d with hle | hle
      · exact ⟨hd, List.mem_cons_self _ _, by omega⟩
      · obtain ⟨it, hit, he⟩ := ih hr
        exact ⟨it, List.mem_cons_of_mem _ hit, by omega⟩

theorem maxHistoryDate_ge {history_data : List InstrumentValue} {mx : Int}
    (h : maxHistoryDate history_data = some mx) :
    ∀ it ∈ history_data, it.moment.1 ≤ mx := by
  induction history_data generalizing mx with
  | nil => simp [maxHistoryDate] at h
  | cons hd rest ih =>
    intro it hit
    cases hr : maxHistoryDate rest with
    | none =>
      rw [maxHistoryDate_cons_none hd hr] at h
      simp only [Option.some.injEq] at h
      rcases List.mem_cons.mp hit with he | hmem
      · subst he; omega
      · rw [maxHistoryDate_eq_none_iff] at hr
        subst hr; simp at hmem
    | some d =>
      rw [maxHistoryDate_cons_some hd hr] at h
      simp only [Option.some.injEq] at h
      rcases List.mem_cons.mp hit with he | hmem
      · subst he; omega
      · have := ih hr it hmem
        omega

theorem maxHistoryDate_mem {history_data : List InstrumentValue} {mx : Int}
    (h : maxHistoryDate history_data = some mx) :
    ∃ it ∈ history_data, it.moment.1 = mx := by
  induction history_data generalizing mx with
  | nil => simp [maxHistoryDate] at h
  | cons hd rest ih =>
    cases hr : maxHistoryDate rest with
    | none =>
      rw [maxHistoryDate_cons_none hd hr] at h
      simp only [Option.some.injEq] at h
      exact ⟨hd, List.mem_cons_self _ _, by omega⟩
    | some d =>
      rw [maxHistoryDate_cons_some hd hr] at h
      simp only [Option.some.injEq] at h
      rcases le_total d hd.moment.1 with hle | hle
      · exact ⟨hd, List.mem_cons_self _ _, by omega⟩
      · obtain ⟨it, hit, he⟩ := ih hr
        exact ⟨it, List.mem_cons_of_mem _ hit, by omega⟩

theorem minHistoryDate_le_maxHistoryDate {history_data : List InstrumentValue}
    {mn mx : Int} (hmn : minHistoryDate history_data = some mn)
    (hmx : maxHistoryDate history_data = some mx) : mn ≤ mx := by
  obtain ⟨it, hit, he⟩ := maxHistoryDate_mem hmx
  have := minHistoryDate_le hmn it hit
  omega

theorem widen_from_le (history_data : List InstrumentValue) (date_from : Int) :
    widen_from history_data date_from ≤ date_from := by
  unfold widen_from
  cases minHistoryDate history_data with
  | none => exact le_refl _
  | some m =>
    by_cases h : m < date_from
    · simp only [h, if_true]; omega
    · simp only [h, if_false]; omega

theorem widen_from_le_minDate {history_data : List InstrumentValue} {mn : Int}
    (h : minHistoryDate history_data = some mn) (date_from : Int) :
    widen_from history_data date_from ≤ mn := by
  unfold widen_from
  rw [h]
  by_cases hlt : mn < date_from
  · simp only [hlt, if_true]; omega
  · simp only [hlt, if_false]; omega

theorem widen_to_ge (history_data : List InstrumentValue) (date_to : Int) :
    date_to ≤ widen_to history_data date_to := by
  unfold widen_to
  cases maxHistoryDate history_data with
  | none => exact le_refl _
  | some m =>
    by_cases h : date_to < m
    · simp only [h, if_true]; omega
    · simp only [h, if_false]; omega

theorem widen_to_ge_maxDate {history_data : List InstrumentValue} {mx : Int}
    (h : maxHistoryDate history_data = some mx) (date_to : Int) :
    mx ≤ widen_to history_data date_to := by
  unfold widen_to
  rw [h]
  by_cases hlt : date_to < mx
  · simp only [hlt, if_true]; omega
  · simp only [hlt, if_false]; omega

theorem widen_from_nil (date_from : Int) : widen_from [] date_from = date_from := rfl

theorem widen_to_nil (date_to : Int) : widen_to [] date_to = date_to := rfl

theorem widen_from_le_widen_to {history_data : List InstrumentValue}
    (hne : history_data ≠ []) (date_from date_to : Int) :
    widen_from history_data date_from ≤ widen_to history_data date_to := by
  cases hmn : minHistoryDate history_data with
  | none => exact absurd (minHistoryDate_eq_none_iff.mp hmn) hne
  | some mn =>
    cases hmx : maxHistoryDate history_data with
    | none => exact absurd (maxHistoryDate_eq_none_iff.mp hmx) hne
    | some mx =>
      have h1 := widen_from_le_minDate hmn date_from
      have h2 := widen_to_ge_maxDate hmx date_to
      have h3 := minHistoryDate_le_maxHistoryDate hmn hmx
      omega

theorem isAffected_iff {date_before_from date_after_to : Int}
    {di : DownloadedInterval} :
    isAffected date_before_from date_after_to di = true ↔
      date_before_from ≤ di.date_to ∧ di.date_from ≤ date_after_to := by
  simp [isAffected]

theorem mem_affectedIntervals {intervals : List DownloadedInterval}
    {date_before_from date_after_to : Int} {di : DownloadedInterval} :
    di ∈ affectedIntervals intervals date_before_from date_after_to ↔
      di ∈ intervals ∧ isAffected date_before_from date_after_to di = true :=
  List.mem_filter

theorem pierce_iff {intervals : List DownloadedInterval} {edge : Int} :
    pierce intervals edge = true ↔
      ∃ di ∈ intervals, di.date_from ≤ edge ∧ edge ≤ di.date_to := by
  simp [pierce, List.any_eq_true]

theorem minIntervalFrom_cons_none {rest : List DownloadedInterval}
    (a : DownloadedInterval) (hr : minIntervalFrom rest = none) :
    minIntervalFrom (a :: rest) = some a.date_from := by
  simp only [minIntervalFrom]
  rw [hr]

theorem minIntervalFrom_cons_some {rest : List DownloadedInterval} {d : Int}
    (a : DownloadedInterval) (hr : minIntervalFrom rest = some d) :
    minIntervalFrom (a :: rest) = some (min a.date_from d) := by
  simp only [minIntervalFrom]
  rw [hr]

theorem maxIntervalTo_cons_none {rest : List DownloadedInterval}
    (a : DownloadedInterval) (hr : maxIntervalTo rest = none) :
    maxIntervalTo (a :: rest) = some a.date_to := by
  simp only [maxIntervalTo]
  rw [hr]

theorem maxIntervalTo_cons_some {rest : List DownloadedInterval} {d : Int}
    (a : DownloadedInterval) (hr : maxIntervalTo rest = some d) :
    maxIntervalTo (a :: rest) = some (max a.date_to d) := by
  simp only [maxIntervalTo]
  rw [hr]

theorem minIntervalFrom_eq_none_iff {l : List DownloadedInterval} :
    minIntervalFrom l = none ↔ l = [] := by
  cases l with
  | nil => simp [minIntervalFrom]
  | cons a rest => simp [minIntervalFrom]

theorem maxIntervalTo_eq_none_iff {l : List DownloadedInterval} :
    maxIntervalTo l = none ↔ l = [] := by
  cases l with
  | nil => simp [maxIntervalTo]
  | cons a rest => simp [maxIntervalTo]

theorem minIntervalFrom_le {l : List DownloadedInterval} {d : Int}
    (h : minIntervalFrom l = some d) : ∀ di ∈ l, d ≤ di.date_from := by
  induction l generalizing d with
  | nil => simp [minIntervalFrom] at h
  | cons a rest ih =>
    intro di hdi
    cases hr : minIntervalFrom rest with
    | none =>
      rw [minIntervalFrom_cons_none a hr] at h
      simp only [Option.some.injEq] at h
      rcases List.mem_cons.mp hdi with he | hmem
      · subst he; omega
      · rw [minIntervalFrom_eq_none_iff] at hr
        subst hr; simp at hmem
    | some x =>
      rw [minIntervalFrom_cons_some a hr] at h
      simp only [Option.some.injEq] at h
      rcases List.mem_cons.mp hdi with he | hmem
      · subst he; omega
      · have := ih hr di hmem
        omega

theorem minIntervalFrom_mem {l : List DownloadedInterval} {d : Int}
    (h : minIntervalFrom l = some d) : ∃ di ∈ l, di.date_from = d := by
  induction l generalizing d with
  | nil => simp [minIntervalFrom] at h
  | cons a rest ih =>
    cases hr : minIntervalFrom rest with
    | none =>
      rw [minIntervalFrom_cons_none a hr] at h
      simp only [Option.some.injEq] at h
      exact ⟨a, List.mem_cons_self _ _, by omega⟩
    | some x =>
      rw [minIntervalFrom_cons_some a hr] at h
      simp only [Option.some.injEq] at h
      rcases le_total a.date_from x with hle | hle
      · exact ⟨a, List.mem_cons_self _ _, by omega⟩
      · obtain ⟨di, hdi, he⟩ := ih hr
        exact ⟨di, List.mem_cons_of_mem _ hdi, by omega⟩

theorem maxIntervalTo_ge {l : List DownloadedInterval} {d : Int}
    (h : maxIntervalTo l = some d) : ∀ di ∈ l, di.date_to ≤ d := by
  induction l generalizing d with
  | nil => simp [maxIntervalTo] at h
  | cons a rest ih =>
    intro di hdi
    cases hr : maxIntervalTo rest with
    | none =>
      rw [maxIntervalTo_cons_none a hr] at h
      simp only [Option.some.injEq] at h
      rcases List.mem_cons.mp hdi with he | hmem
      · subst he; omega
      · rw [maxIntervalTo_eq_none_iff] at hr
        subst hr; simp at hmem
    | some x =>
      rw [maxIntervalTo_cons_some a hr] at h
      simp only [Option.some.injEq] at h
      rcases List.mem_cons.mp hdi with he | hmem
      · subst he; omega
      · have := ih hr di hmem
        omega

theorem maxIntervalTo_mem {l : List DownloadedInterval} {d : Int}
    (h : maxIntervalTo l = some d) : ∃ di ∈ l, di.date_to = d := by
  induction l generalizing d with
  | nil => simp [maxIntervalTo] at h
  | cons a rest ih =>
    cases hr : maxIntervalTo rest with
    | none =>
      rw [maxIntervalTo_cons_none a hr] at h
      simp only [Option.some.injEq] at h
      exact ⟨a, List.mem_cons_self _ _, by omega⟩
    | some x =>
      rw [maxIntervalTo_cons_some a hr] at h
      simp only [Option.some.injEq] at h
      rcases le_total x a.date_to with hle | hle
      · exact ⟨a, List.mem_cons_self _ _, by omega⟩
      · obtain ⟨di, hdi, he⟩ := ih hr
        exact ⟨di, List.mem_cons_of_mem _ hdi, by omega⟩

theorem survivor_eq_none_iff {l : List DownloadedInterval} :
    survivor l = none ↔ l = [] := by
  cases l with
  | nil => simp [survivor]
  | cons a rest => simp [survivor]

theorem survivor_cons_none {rest : List DownloadedInterval}
    (a : DownloadedInterval) (hr : survivor rest = none) :
    survivor (a :: rest) = some a := by
  simp only [survivor]
  rw [hr]

theorem survivor_cons_some {rest : List DownloadedInterval}
    {x : DownloadedInterval} (a : DownloadedInterval)
    (hr : survivor rest = some x) :
    survivor (a :: rest) = some (if x.id < a.id then x else a) := by
  simp only [survivor]
  rw [hr]

theorem survivor_mem {l : List DownloadedInterval} {s : DownloadedInterval}
    (h : survivor l = some s) : s ∈ l := by
  induction l generalizing s with
  | nil => simp [survivor] at h
  | cons a rest ih =>
    cases hr : survivor rest with
    | none =>
      rw [survivor_cons_none a hr] at h
      simp only [Option.some.injEq] at h
      exact h ▸ List.mem_cons_self _ _
    | some x =>
      rw [survivor_cons_some a hr] at h
      simp only [Option.some.injEq] at h
      by_cases hlt : x.id < a.id
      · rw [if_pos hlt] at h
        exact List.mem_cons_of_mem _ (h ▸ ih hr)
      · rw [if_neg hlt] at h
        exact h ▸ List.mem_cons_self _ _

/-! ### Branch equations for `reconcileIntervals` -/

theorem reconcileIntervals_no_affected_no_data
    {intervals : List DownloadedInterval} (nextId : Nat) {wf wt : Int}
    (haff : affectedIntervals intervals (wf - 1) (wt + 1) = []) :
    reconcileIntervals intervals nextId [] wf wt = (intervals, nextId) := by
  simp only [reconcileIntervals]
  rw [haff]
  simp [minHistoryDate, maxHistoryDate]

theorem reconcileIntervals_create
    {intervals : List DownloadedInterval} (nextId : Nat)
    {history_data : List InstrumentValue} {wf wt mn mx : Int}
    (haff : affectedIntervals intervals (wf - 1) (wt + 1) = [])
    (hmn : minHistoryDate history_data = some mn)
    (hmx : maxHistoryDate history_data = some mx) :
    reconcileIntervals intervals nextId history_data wf wt =
      (intervals ++ [⟨nextId, mn, mx⟩], nextId + 1) := by
  simp only [reconcileIntervals]
  rw [haff, hmn, hmx]
  simp

theorem reconcileIntervals_skip
    {intervals : List DownloadedInterval} (nextId : Nat) {wf wt : Int}
    (haff : affectedIntervals intervals (wf - 1) (wt + 1) ≠ [])
    (hnp : ¬(pierce intervals (wf - 1) = true ∧ pierce intervals (wt + 1) = true)) :
    reconcileIntervals intervals nextId [] wf wt = (intervals, nextId) := by
  simp only [reconcileIntervals]
  rw [if_neg (by simpa [List.isEmpty_iff] using haff)]
  have hc : (!List.isEmpty ([] : List InstrumentValue) ||
      (pierce intervals (wf - 1) && pierce intervals (wt + 1))) = false := by
    simp only [List.isEmpty_nil, Bool.not_true, Bool.false_or]
    by_cases hp : pierce intervals (wf - 1) = true
    · by_cases hq : pierce intervals (wt + 1) = true
      · exact absurd ⟨hp, hq⟩ hnp
      · have hq2 : pierce intervals (wt + 1) = false := by simpa using hq
        simp [hq2]
    · have hp2 : pierce intervals (wf - 1) = false := by simpa using hp
      simp [hp2]
  rw [hc]
  simp

theorem reconcileIntervals_merge
    {intervals : List DownloadedInterval} (nextId : Nat)
    {history_data : List InstrumentValue} {wf wt : Int}
    {s : DownloadedInterval}
    (haff : affectedIntervals intervals (wf - 1) (wt + 1) ≠ [])
    (hcond : history_data ≠ [] ∨
      (pierce intervals (wf - 1) = true ∧ pierce intervals (wt + 1) = true))
    (hs : survivor (affectedIntervals intervals (wf - 1) (wt + 1)) = some s) :
    reconcileIntervals intervals nextId history_data wf wt =
      (intervals.filterMap (fun di =>
        if isAffected (wf - 1) (wt + 1) di then
          if di.id = s.id then
            some ⟨di.id, merged_from intervals history_data wf wt,
              merged_to intervals history_data wf wt⟩
          else none
        else some di),
       nextId) := by
  simp only [reconcileIntervals]
  rw [if_neg (by simpa [List.isEmpty_iff] using haff)]
  have hc : (!history_data.isEmpty ||
      (pierce intervals (wf - 1) && pierce intervals (wt + 1))) = true := by
    rcases hcond with hne | ⟨hp, hq⟩
    · simp [List.isEmpty_iff, hne]
    · simp [hp, hq]
  rw [hc]
  simp only [if_true]
  rw [hs]

/-! ### Facts about the merged bounds -/

theorem merged_from_cases (intervals : List DownloadedInterval)
    (history_data : List InstrumentValue) (wf wt : Int) :
    merged_from intervals history_data wf wt =
        min wf ((minIntervalFrom
          (affectedIntervals intervals (wf - 1) (wt + 1))).getD wf) ∨
      (∃ mn, minHistoryDate history_data = some mn ∧
        pierce intervals (wf - 1) = false ∧ wf < mn ∧
        merged_from intervals history_data wf wt = mn) := by
  unfold merged_from
  by_cases hp : pierce intervals (wf - 1) = true
  · rw [hp]
    simp
  · have hp2 : pierce intervals (wf - 1) = false := by simpa using hp
    rw [hp2]
    cases hmn : minHistoryDate history_data with
    | none => simp
    | some mn =>
      by_cases hlt : wf < mn
      · exact Or.inr ⟨mn, rfl, rfl, hlt, by simp [hlt]⟩
      · simp [hlt]

theorem merged_to_cases (intervals : List DownloadedInterval)
    (history_data : List InstrumentValue) (wf wt : Int) :
    merged_to intervals history_data wf wt =
        max wt ((maxIntervalTo
          (affectedIntervals intervals (wf - 1) (wt + 1))).getD wt) ∨
      (∃ mx, maxHistoryDate history_data = some mx ∧
        pierce intervals (wt + 1) = false ∧ mx < wt ∧
        merged_to intervals history_data wf wt = mx) := by
  unfold merged_to
  by_cases hp : pierce intervals (wt + 1) = true
  · rw [hp]
    simp
  · have hp2 : pierce intervals (wt + 1) = false := by simpa using hp
    rw [hp2]
    cases hmx : maxHistoryDate history_data with
    | none => simp
    | some mx =>
      by_cases hlt : mx < wt
      · exact Or.inr ⟨mx, rfl, rfl, hlt, by simp [hlt]⟩
      · simp [hlt]

theorem not_isAffected_cases {date_before_from date_after_to : Int}
    {di : DownloadedInterval}
    (h : isAffected date_before_from date_after_to di = false) :
    di.date_to < date_before_from ∨ date_after_to < di.date_from := by
  have := @isAffected_iff date_before_from date_after_to di
  rw [h] at this
  simp only [Bool.false_eq_true, false_iff, not_and, not_le] at this
  omega

theorem affected_of_contains {intervals : List DownloadedInterval}
    {di : DownloadedInterval} {edge eb ea : Int}
    (hdi : di ∈ intervals) (h1 : di.date_from ≤ edge) (h2 : edge ≤ di.date_to)
    (hbounds : eb ≤ edge ∧ edge ≤ ea) :
    di ∈ affectedIntervals intervals eb ea := by
  refine mem_affectedIntervals.mpr ⟨hdi, isAffected_iff.mpr ⟨?_, ?_⟩⟩ <;> omega

theorem merged_to_ge_edge {intervals : List DownloadedInterval}
    {history_data : List InstrumentValue} {wf wt : Int}
    (haff : affectedIntervals intervals (wf - 1) (wt + 1) ≠ [])
    (hwf : ∀ mn, minHistoryDate history_data = some mn → wf ≤ mn) :
    wf - 1 ≤ merged_to intervals history_data wf wt := by
  rcases merged_to_cases intervals history_data wf wt with hbase | ⟨mx, hmx, _, hlt, heq⟩
  · cases hto : maxIntervalTo (affectedIntervals intervals (wf - 1) (wt + 1)) with
    | none => exact absurd (maxIntervalTo_eq_none_iff.mp hto) haff
    | some mb =>
      obtain ⟨a, ha⟩ := List.exists_mem_of_ne_nil _ haff
      have h1 : wf - 1 ≤ a.date_to :=
        (isAffected_iff.mp (mem_affectedIntervals.mp ha).2).1
      have h2 := maxIntervalTo_ge hto a ha
      rw [hbase, hto]
      simp only [Option.getD_some]
      omega
  · have hne : history_data ≠ [] :=
      fun he => by rw [he] at hmx; simp [maxHistoryDate] at hmx
    cases hmn : minHistoryDate history_data with
    | none => exact absurd (minHistoryDate_eq_none_iff.mp hmn) hne
    | some mn =>
      have := hwf mn hmn
      have := minHistoryDate_le_maxHistoryDate hmn hmx
      omega

theorem merged_from_le_edge {intervals : List DownloadedInterval}
    {history_data : List InstrumentValue} {wf wt : Int}
    (haff : affectedIntervals intervals (wf - 1) (wt + 1) ≠ [])
    (hwt : ∀ mx, maxHistoryDate history_data = some mx → mx ≤ wt) :
    merged_from intervals history_data wf wt ≤ wt + 1 := by
  rcases merged_from_cases intervals history_data wf wt with hbase | ⟨mn, hmn, _, hlt, heq⟩
  · cases hfrom : minIntervalFrom (affectedIntervals intervals (wf - 1) (wt + 1)) with
    | none => exact absurd (minIntervalFrom_eq_none_iff.mp hfrom) haff
    | some ma =>
      obtain ⟨a, ha⟩ := List.exists_mem_of_ne_nil _ haff
      have h1 : a.date_from ≤ wt + 1 :=
        (isAffected_iff.mp (mem_affectedIntervals.mp ha).2).2
      have h2 := minIntervalFrom_le hfrom a ha
      rw [hbase, hfrom]
      simp only [Option.getD_some]
      omega
  · have hne : history_data ≠ [] :=
      fun he => by rw [he] at hmn; simp [minHistoryDate] at hmn
    cases hmx : maxHistoryDate history_data with
    | none => exact absurd (maxHistoryDate_eq_none_iff.mp hmx) hne
    | some mx =>
      have := hwt mx hmx
      have := minHistoryDate_le_maxHistoryDate hmn hmx
      omega

theorem merged_from_le_merged_to {intervals : List DownloadedInterval}
    {history_data : List InstrumentValue} {wf wt : Int}
    (haff : affectedIntervals intervals (wf - 1) (wt + 1) ≠ [])
    (hval : ∀ di ∈ intervals, di.date_from ≤ di.date_to)
    (hwf : ∀ mn, minHistoryDate history_data = some mn → wf ≤ mn)
    (hwt : ∀ mx, maxHistoryDate history_data = some mx → mx ≤ wt) :
    merged_from intervals history_data wf wt ≤
      merged_to intervals history_data wf wt := by
  rcases merged_from_cases intervals history_data wf wt with
    hb1 | ⟨mn, hmn, _, hlt1, heq1⟩ <;>
  rcases merged_to_cases intervals history_data wf wt with
    hb2 | ⟨mx, hmx, _, hlt2, heq2⟩
  · -- both bounds untightened
    cases hfrom : minIntervalFrom (affectedIntervals intervals (wf - 1) (wt + 1)) with
    | none => exact absurd (minIntervalFrom_eq_none_iff.mp hfrom) haff
    | some ma =>
      cases hto : maxIntervalTo (affectedIntervals intervals (wf - 1) (wt + 1)) with
      | none => exact absurd (maxIntervalTo_eq_none_iff.mp hto) haff
      | some mb =>
        obtain ⟨a, ha, hae⟩ := minIntervalFrom_mem hfrom
        have h1 := hval a (mem_affectedIntervals.mp ha).1
        have h2 := maxIntervalTo_ge hto a ha
        rw [hb1, hb2, hfrom, hto]
        simp only [Option.getD_some]
        omega
  · -- right bound tightened to the maximum history date
    have hne : history_data ≠ [] :=
      fun he => by rw [he] at hmx; simp [maxHistoryDate] at hmx
    cases hmn : minHistoryDate history_data with
    | none => exact absurd (minHistoryDate_eq_none_iff.mp hmn) hne
    | some mn =>
      have := hwf mn hmn
      have := minHistoryDate_le_maxHistoryDate hmn hmx
      rw [hb1, heq2]
      have : min wf ((minIntervalFrom
          (affectedIntervals intervals (wf - 1) (wt + 1))).getD wf) ≤ wf :=
        min_le_left _ _
      omega
  · -- left bound tightened to the minimum history date
    have hne : history_data ≠ [] :=
      fun he => by rw [he] at hmn; simp [minHistoryDate] at hmn
    cases hmx : maxHistoryDate history_data with
    | none => exact absurd (maxHistoryDate_eq_none_iff.mp hmx) hne
    | some mx =>
      have := hwt mx hmx
      have := minHistoryDate_le_maxHistoryDate hmn hmx
      rw [heq1, hb2]
      have : wt ≤ max wt ((maxIntervalTo
          (affectedIntervals intervals (wf - 1) (wt + 1))).getD wt) :=
        le_max_left _ _
      omega
  · -- both bounds tightened
    have := minHistoryDate_le_maxHistoryDate hmn hmx
    omega

theorem separated_left_unaffected {intervals : List DownloadedInterval}
    {history_data : List InstrumentValue} {wf wt : Int} {u : DownloadedInterval}
    (haff : affectedIntervals intervals (wf - 1) (wt + 1) ≠ [])
    (hval : ∀ di ∈ intervals, di.date_from ≤ di.date_to)
    (hnd : (intervals.map DownloadedInterval.id).Nodup)
    (hsep : ∀ a ∈ intervals, ∀ b ∈ intervals, a.id ≠ b.id → Separated a b)
    (hu : u ∈ intervals) (hleft : u.date_to < wf - 1) :
    u.date_to + 1 < merged_from intervals history_data wf wt := by
  cases hfrom : minIntervalFrom (affectedIntervals intervals (wf - 1) (wt + 1)) with
  | none => exact absurd (minIntervalFrom_eq_none_iff.mp hfrom) haff
  | some ma =>
    obtain ⟨a, ha, hae⟩ := minIntervalFrom_mem hfrom
    have haI : a ∈ intervals := (mem_affectedIntervals.mp ha).1
    have haA := isAffected_iff.mp (mem_affectedIntervals.mp ha).2
    have hune : u.id ≠ a.id := by
      intro hid
      have : u = a := List.inj_on_of_nodup_map hnd hu haI hid
      subst this
      omega
    have hsepua := hsep u hu a haI hune
    have huval := hval u hu
    have hlt : u.date_to + 1 < ma := by
      rcases hsepua with h | h
      · omega
      · omega
    rcases merged_from_cases intervals history_data wf wt with hb | ⟨mn, hmn, _, hlt2, heq⟩
    · rw [hb, hfrom]
      simp only [Option.getD_some]
      omega
    · omega

theorem separated_right_unaffected {intervals : List DownloadedInterval}
    {history_data : List InstrumentValue} {wf wt : Int} {u : DownloadedInterval}
    (haff : affectedIntervals intervals (wf - 1) (wt + 1) ≠ [])
    (hval : ∀ di ∈ intervals, di.date_from ≤ di.date_to)
    (hnd : (intervals.map DownloadedInterval.id).Nodup)
    (hsep : ∀ a ∈ intervals, ∀ b ∈ intervals, a.id ≠ b.id → Separated a b)
    (hu : u ∈ intervals) (hright : wt + 1 < u.date_from) :
    merged_to intervals history_data wf wt + 1 < u.date_from := by
  cases hto : maxIntervalTo (affectedIntervals intervals (wf - 1) (wt + 1)) with
  | none => exact absurd (maxIntervalTo_eq_none_iff.mp hto) haff
  | some mb =>
    obtain ⟨b, hb, hbe⟩ := maxIntervalTo_mem hto
    have hbI : b ∈ intervals := (mem_affectedIntervals.mp hb).1
    have hbA := isAffected_iff.mp (mem_affectedIntervals.mp hb).2
    have hune : b.id ≠ u.id := by
      intro hid
      have : b = u := List.inj_on_of_nodup_map hnd hbI hu hid
      subst this
      omega
    have hsepbu := hsep b hbI u hu hune
    have huval := hval u hu
    have hlt : mb + 1 < u.date_from := by
      rcases hsepbu with h | h
      · omega
      · omega
    rcases merged_to_cases intervals history_data wf wt with hb2 | ⟨mx, hmx, _, hlt2, heq⟩
    · rw [hb2, hto]
      simp only [Option.getD_some]
      omega
    · omega

/-! ### The merge result -/

theorem filterMap_ids_sublist (g : DownloadedInterval → Option DownloadedInterval)
    (hg : ∀ di x, g di = some x → x.id = di.id) (l : List DownloadedInterval) :
    ((l.filterMap g).map DownloadedInterval.id).Sublist
      (l.map DownloadedInterval.id) := by
  induction l with
  | nil => simp
  | cons a l ih =>
    rw [List.filterMap_cons]
    cases hga : g a with
    | none =>
      rw [List.map_cons]
      exact ih.cons _
    | some x =>
      rw [List.map_cons, List.map_cons, hg a x hga]
      exact ih.cons₂ _

theorem mem_merge_characterize {intervals : List DownloadedInterval}
    {date_before_from date_after_to mf mt : Int} {s x : DownloadedInterval}
    (hx : x ∈ intervals.filterMap (fun di =>
      if isAffected date_before_from date_after_to di then
        if di.id = s.id then some ⟨di.id, mf, mt⟩ else none
      else some di)) :
    (x ∈ intervals ∧ isAffected date_before_from date_after_to x = false) ∨
      x = ⟨s.id, mf, mt⟩ := by
  obtain ⟨di, hdi, hgdi⟩ := List.mem_filterMap.mp hx
  by_cases ha : isAffected date_before_from date_after_to di = true
  · rw [if_pos ha] at hgdi
    by_cases hid : di.id = s.id
    · rw [if_pos hid] at hgdi
      right
      have he := Option.some.inj hgdi
      rw [← he, hid]
    · rw [if_neg hid] at hgdi
      cases hgdi
  · have ha2 : isAffected date_before_from date_after_to di = false := by
      simpa using ha
    rw [ha2] at hgdi
    simp only [Bool.false_eq_true, if_false] at hgdi
    have he := Option.some.inj hgdi
    subst he
    exact Or.inl ⟨hdi, ha2⟩

theorem merged_mem_result {intervals : List DownloadedInterval}
    {date_before_from date_after_to mf mt : Int} {s : DownloadedInterval}
    (hsI : s ∈ intervals)
    (hsA : isAffected date_before_from date_after_to s = true) :
    (⟨s.id, mf, mt⟩ : DownloadedInterval) ∈ intervals.filterMap (fun di =>
      if isAffected date_before_from date_after_to di then
        if di.id = s.id then some ⟨di.id, mf, mt⟩ else none
      else some di) :=
  List.mem_filterMap.mpr ⟨s, hsI, by simp [hsA]⟩

theorem unaffected_mem_result {intervals : List DownloadedInterval}
    {date_before_from date_after_to mf mt : Int} {s di : DownloadedInterval}
    (hdi : di ∈ intervals)
    (hna : isAffected date_before_from date_after_to di = false) :
    di ∈ intervals.filterMap (fun d =>
      if isAffected date_before_from date_after_to d then
        if d.id = s.id then some ⟨d.id, mf, mt⟩ else none
      else some d) :=
  List.mem_filterMap.mpr ⟨di, hdi, by simp [hna]⟩

/-! ### Invariant preservation -/

theorem reconcileIntervals_preserves
    {intervals : List DownloadedInterval} {nextId : Nat}
    {history_data : List InstrumentValue} {wf wt : Int}
    (hwf : ∀ mn, minHistoryDate history_data = some mn → wf ≤ mn)
    (hwt : ∀ mx, maxHistoryDate history_data = some mx → mx ≤ wt)
    (hval : ∀ di ∈ intervals, di.date_from ≤ di.date_to)
    (hnd : (intervals.map DownloadedInterval.id).Nodup)
    (hsep : ∀ a ∈ intervals, ∀ b ∈ intervals, a.id ≠ b.id → Separated a b)
    (hfresh : ∀ di ∈ intervals, di.id < nextId) :
    (∀ di ∈ (reconcileIntervals intervals nextId history_data wf wt).1,
      di.date_from ≤ di.date_to) ∧
    ((reconcileIntervals intervals nextId history_data wf wt).1.map
      DownloadedInterval.id).Nodup ∧
    (∀ a ∈ (reconcileIntervals intervals nextId history_data wf wt).1,
      ∀ b ∈ (reconcileIntervals intervals nextId history_data wf wt).1,
        a.id ≠ b.id → Separated a b) ∧
    (∀ di ∈ (reconcileIntervals intervals nextId history_data wf wt).1,
      di.id < (reconcileIntervals intervals nextId history_data wf wt).2) := by
  by_cases haff : affectedIntervals intervals (wf - 1) (wt + 1) = []
  · have hunaff : ∀ di ∈ intervals, isAffected (wf - 1) (wt + 1) di = false := by
      intro di hdi
      have h2 : ∀ a ∈ intervals, ¬ isAffected (wf - 1) (wt + 1) a = true :=
        List.filter_eq_nil_iff.mp haff
      simpa using h2 di hdi
    cases hmn : minHistoryDate history_data with
    | none =>
      have hnil : history_data = [] := minHistoryDate_eq_none_iff.mp hmn
      subst hnil
      rw [reconcileIntervals_no_affected_no_data nextId haff]
      exact ⟨hval, hnd, hsep, hfresh⟩
    | some mn =>
      cases hmx : maxHistoryDate history_data with
      | none =>
        rw [maxHistoryDate_eq_none_iff.mp hmx] at hmn
        simp [minHistoryDate] at hmn
      | some mx =>
        rw [reconcileIntervals_create nextId haff hmn hmx]
        have hmnmx := minHistoryDate_le_maxHistoryDate hmn hmx
        have hwfmn := hwf mn hmn
        have hwtmx := hwt mx hmx
        refine ⟨?_, ?_, ?_, ?_⟩
        · intro di hdi
          rcases List.mem_append.mp hdi with h | h
          · exact hval di h
          · simp only [List.mem_singleton] at h
            subst h
            exact hmnmx
        · rw [List.map_append]
          rw [List.nodup_append]
          refine ⟨hnd, by simp, ?_⟩
          intro a ha hb
          simp only [List.map_cons, List.map_nil, List.mem_singleton] at hb
          subst hb
          obtain ⟨di, hdi, hde⟩ := List.mem_map.mp ha
          have := hfresh di hdi
          omega
        · intro a ha b hb hab
          rcases List.mem_append.mp ha with ha2 | ha2 <;>
            rcases List.mem_append.mp hb with hb2 | hb2
          · exact hsep a ha2 b hb2 hab
          · simp only [List.mem_singleton] at hb2
            subst hb2
            rcases not_isAffected_cases (hunaff a ha2) with h | h
            · exact Or.inl (by show a.date_to + 1 < mn; omega)
            · exact Or.inr (by show mx + 1 < a.date_from; omega)
          · simp only [List.mem_singleton] at ha2
            subst ha2
            rcases not_isAffected_cases (hunaff b hb2) with h | h
            · exact Or.inr (by show b.date_to + 1 < mn; omega)
            · exact Or.inl (by show mx + 1 < b.date_from; omega)
          · simp only [List.mem_singleton] at ha2 hb2
            subst ha2
            subst hb2
            exact absurd rfl hab
        · intro di hdi
          rcases List.mem_append.mp hdi with h | h
          · have := hfresh di h
            omega
          · simp only [List.mem_singleton] at h
            subst h
            show nextId < nextId + 1
            omega
  · cases hs : survivor (affectedIntervals intervals (wf - 1) (wt + 1)) with
    | none => exact absurd (survivor_eq_none_iff.mp hs) haff
    | some s =>
      have hsmem := survivor_mem hs
      have hsI : s ∈ intervals := (mem_affectedIntervals.mp hsmem).1
      have hsA : isAffected (wf - 1) (wt + 1) s = true :=
        (mem_affectedIntervals.mp hsmem).2
      by_cases hmerge : history_data ≠ [] ∨
          (pierce intervals (wf - 1) = true ∧ pierce intervals (wt + 1) = true)
      · rw [reconcileIntervals_merge nextId haff hmerge hs]
        have hmfmt : merged_from intervals history_data wf wt ≤
            merged_to intervals history_data wf wt :=
          merged_from_le_merged_to haff hval hwf hwt
        have hg : ∀ di x, (if isAffected (wf - 1) (wt + 1) di then
            if di.id = s.id then
              some ⟨di.id, merged_from intervals history_data wf wt,
                merged_to intervals history_data wf wt⟩
            else none
          else some di) = some x → x.id = di.id := by
          intro di x hgx
          by_cases ha : isAffected (wf - 1) (wt + 1) di = true
          · rw [if_pos ha] at hgx
            by_cases hid : di.id = s.id
            · rw [if_pos hid] at hgx
              rw [← Option.some.inj hgx]
            · rw [if_neg hid] at hgx
              cases hgx
          · have ha2 : isAffected (wf - 1) (wt + 1) di = false := by simpa using ha
            rw [ha2] at hgx
            simp only [Bool.false_eq_true, if_false] at hgx
            rw [← Option.some.inj hgx]
        refine ⟨?_, ?_, ?_, ?_⟩
        · intro x hx
          rcases mem_merge_characterize hx with ⟨hxI, _⟩ | hxM
          · exact hval x hxI
          · subst hxM
            exact hmfmt
        · exact List.Nodup.sublist (filterMap_ids_sublist _ hg intervals) hnd
        · intro a ha2 b hb2 hab
          rcases mem_merge_characterize ha2 with ⟨haI, hana⟩ | haM <;>
            rcases mem_merge_characterize hb2 with ⟨hbI, hbna⟩ | hbM
          · exact hsep a haI b hbI hab
          · subst hbM
            rcases not_isAffected_cases hana with h | h
            · exact Or.inl (separated_left_unaffected haff hval hnd hsep haI
                (by omega))
            · exact Or.inr
                (by show merged_to intervals history_data wf wt + 1 < a.date_from
                    exact separated_right_unaffected haff hval hnd hsep haI
                      (by omega))
          · subst haM
            rcases not_isAffected_cases hbna with h | h
            · exact Or.inr (separated_left_unaffected haff hval hnd hsep hbI
                (by omega))
            · exact Or.inl
                (by show merged_to intervals history_data wf wt + 1 < b.date_from
                    exact separated_right_unaffected haff hval hnd hsep hbI
                      (by omega))
          · subst haM
            subst hbM
            exact absurd rfl hab
        · intro x hx
          rcases mem_merge_characterize hx with ⟨hxI, _⟩ | hxM
          · exact hfresh x hxI
          · subst hxM
            exact hfresh s hsI
      · rw [not_or, not_not] at hmerge
        obtain ⟨hhd, hnp⟩ := hmerge
        subst hhd
        rw [reconcileIntervals_skip nextId haff hnp]
        exact ⟨hval, hnd, hsep, hfresh⟩

theorem save_history_data_def (st : ExporterState)
    (history_data : List InstrumentValue) (date_from date_to : Int) :
    save_history_data st history_data date_from date_to =
      { intervals := (reconcileIntervals st.intervals st.nextId history_data
          (widen_from history_data date_from) (widen_to history_data date_to)).1
        points := update_or_create_history_data st.points history_data
        nextId := (reconcileIntervals st.intervals st.nextId history_data
          (widen_from history_data date_from) (widen_to history_data date_to)).2 } :=
  rfl

theorem save_history_data_invariant {st : ExporterState}
    (h : ReconcilerInvariant st) (history_data : List InstrumentValue)
    (date_from date_to : Int) :
    ReconcilerInvariant (save_history_data st history_data date_from date_to) := by
  obtain ⟨hval, hnd, hsep, hfresh⟩ := h
  have hwf : ∀ mn, minHistoryDate history_data = some mn →
      widen_from history_data date_from ≤ mn :=
    fun mn hmn => widen_from_le_minDate hmn date_from
  have hwt : ∀ mx, maxHistoryDate history_data = some mx →
      mx ≤ widen_to history_data date_to :=
    fun mx hmx => widen_to_ge_maxDate hmx date_to
  have hp := reconcileIntervals_preserves hwf hwt hval hnd hsep hfresh
  rw [save_history_data_def]
  exact ⟨hp.1, hp.2.1, hp.2.2.1, hp.2.2.2⟩

theorem applyCalls_nil (st : ExporterState) : applyCalls st [] = st := rfl

theorem applyCalls_cons (st : ExporterState)
    (c : List InstrumentValue × Int × Int)
    (calls : List (List InstrumentValue × Int × Int)) :
    applyCalls st (c :: calls) =
      applyCalls (save_history_data st c.1 c.2.1 c.2.2) calls := rfl

theorem applyCalls_invariant {st : ExporterState}
    (h : ReconcilerInvariant st)
    (calls : List (List InstrumentValue × Int × Int)) :
    ReconcilerInvariant (applyCalls st calls) := by
  induction calls generalizing st with
  | nil => exact h
  | cons c cs ih =>
    rw [applyCalls_cons]
    exact ih (save_history_data_invariant h c.1 c.2.1 c.2.2)

theorem id_ne_of_ne {l : List DownloadedInterval} {a b : DownloadedInterval}
    (hnd : (l.map DownloadedInterval.id).Nodup) (ha : a ∈ l) (hb : b ∈ l)
    (hab : a ≠ b) : a.id ≠ b.id :=
  fun hid => hab (List.inj_on_of_nodup_map hnd ha hb hid)

/-! ### Idempotence machinery -/

theorem filterMap_eq_self_of {α : Type} (g : α → Option α) (l : List α)
    (h : ∀ x ∈ l, g x = some x) : l.filterMap g = l := by
  induction l with
  | nil => rfl
  | cons a l ih =>
    rw [List.filterMap_cons, h a (List.mem_cons_self _ _)]
    rw [ih (fun x hx => h x (List.mem_cons_of_mem _ hx))]

theorem merged_from_eq_tight {intervals : List DownloadedInterval}
    {history_data : List InstrumentValue} {wf wt mn : Int}
    (hp : pierce intervals (wf - 1) = false)
    (hmn : minHistoryDate history_data = some mn) (hlt : wf < mn) :
    merged_from intervals history_data wf wt = mn := by
  unfold merged_from
  rw [hp, hmn]
  simp [hlt]

theorem merged_from_eq_base_of_pierced {intervals : List DownloadedInterval}
    {history_data : List InstrumentValue} {wf wt : Int}
    (hp : pierce intervals (wf - 1) = true) :
    merged_from intervals history_data wf wt =
      min wf ((minIntervalFrom
        (affectedIntervals intervals (wf - 1) (wt + 1))).getD wf) := by
  unfold merged_from
  rw [hp]
  simp

theorem merged_from_eq_base_of_none {intervals : List DownloadedInterval}
    {history_data : List InstrumentValue} {wf wt : Int}
    (hmn : minHistoryDate history_data = none) :
    merged_from intervals history_data wf wt =
      min wf ((minIntervalFrom
        (affectedIntervals intervals (wf - 1) (wt + 1))).getD wf) := by
  unfold merged_from
  rw [hmn]
  by_cases hp : pierce intervals (wf - 1) = true
  · rw [hp]; simp
  · have hp2 : pierce intervals (wf - 1) = false := by simpa using hp
    rw [hp2]; simp

theorem merged_from_eq_base_of_ge {intervals : List DownloadedInterval}
    {history_data : List InstrumentValue} {wf wt mn : Int}
    (hmn : minHistoryDate history_data = some mn) (hge : ¬ wf < mn) :
    merged_from intervals history_data wf wt =
      min wf ((minIntervalFrom
        (affectedIntervals intervals (wf - 1) (wt + 1))).getD wf) := by
  unfold merged_from
  rw [hmn]
  by_cases hp : pierce intervals (wf - 1) = true
  · rw [hp]; simp
  · have hp2 : pierce intervals (wf - 1) = false := by simpa using hp
    rw [hp2]; simp [hge]

theorem merged_to_eq_tight {intervals : List DownloadedInterval}
    {history_data : List InstrumentValue} {wf wt mx : Int}
    (hp : pierce intervals (wt + 1) = false)
    (hmx : maxHistoryDate history_data = some mx) (hlt : mx < wt) :
    merged_to intervals history_data wf wt = mx := by
  unfold merged_to
  rw [hp, hmx]
  simp [hlt]

theorem merged_to_eq_base_of_pierced {intervals : List DownloadedInterval}
    {history_data : List InstrumentValue} {wf wt : Int}
    (hp : pierce intervals (wt + 1) = true) :
    merged_to intervals history_data wf wt =
      max wt ((maxIntervalTo
        (affectedIntervals intervals (wf - 1) (wt + 1))).getD wt) := by
  unfold merged_to
  rw [hp]
  simp

theorem merged_to_eq_base_of_none {intervals : List DownloadedInterval}
    {history_data : List InstrumentValue} {wf wt : Int}
    (hmx : maxHistoryDate history_data = none) :
    merged_to intervals history_data wf wt =
      max wt ((maxIntervalTo
        (affectedIntervals intervals (wf - 1) (wt + 1))).getD wt) := by
  unfold merged_to
  rw [hmx]
  by_cases hp : pierce intervals (wt + 1) = true
  · rw [hp]; simp
  · have hp2 : pierce intervals (wt + 1) = false := by simpa using hp
    rw [hp2]; simp

theorem merged_to_eq_base_of_ge {intervals : List DownloadedInterval}
    {history_data : List InstrumentValue} {wf wt mx : Int}
    (hmx : maxHistoryDate history_data = some mx) (hge : ¬ mx < wt) :
    merged_to intervals history_data wf wt =
      max wt ((maxIntervalTo
        (affectedIntervals intervals (wf - 1) (wt + 1))).getD wt) := by
  unfold merged_to
  rw [hmx]
  by_cases hp : pierce intervals (wt + 1) = true
  · rw [hp]; simp
  · have hp2 : pierce intervals (wt + 1) = false := by simpa using hp
    rw [hp2]; simp [hge]

/-- After a merge with survivor `s` and bounds `mf, mt`, the merged record
`⟨s.id, mf, mt⟩` is the single affected interval of the result. -/
theorem merge_affected_singleton {intervals : List DownloadedInterval}
    {date_before_from date_after_to mf mt : Int} {s : DownloadedInterval}
    (hnd : (intervals.map DownloadedInterval.id).Nodup)
    (hsI : s ∈ intervals)
    (hsA : isAffected date_before_from date_after_to s = true)
    (haffM : isAffected date_before_from date_after_to
      (⟨s.id, mf, mt⟩ : DownloadedInterval) = true) :
    (intervals.filterMap (fun di =>
      if isAffected date_before_from date_after_to di then
        if di.id = s.id then some ⟨di.id, mf, mt⟩ else none
      else some di)).filter (isAffected date_before_from date_after_to) =
      [(⟨s.id, mf, mt⟩ : DownloadedInterval)] := by
  induction intervals with
  | nil => simp at hsI
  | cons a l ih =>
    rw [List.map_cons, List.nodup_cons] at hnd
    rw [List.filterMap_cons]
    by_cases ha : isAffected date_before_from date_after_to a = true
    · by_cases hid : a.id = s.id
      · -- `a` is the survivor itself: no other element of `l` carries its id
        rw [if_pos ha, if_pos hid, hid]
        rw [List.filter_cons_of_pos haffM]
        have hrest : (l.filterMap (fun di =>
            if isAffected date_before_from date_after_to di then
              if di.id = s.id then some ⟨di.id, mf, mt⟩ else none
            else some di)).filter (isAffected date_before_from date_after_to)
            = [] := by
          rw [List.filter_eq_nil_iff]
          intro y hy
          obtain ⟨x, hx, hgx⟩ := List.mem_filterMap.mp hy
          by_cases hax : isAffected date_before_from date_after_to x = true
          · rw [if_pos hax] at hgx
            by_cases hix : x.id = s.id
            · exact absurd (List.mem_map.mpr ⟨x, hx, hix.trans hid.symm⟩) hnd.1
            · rw [if_neg hix] at hgx
              cases hgx
          · have hax2 : isAffected date_before_from date_after_to x = false := by
              simpa using hax
            rw [hax2] at hgx
            simp only [Bool.false_eq_true, if_false] at hgx
            rw [← Option.some.inj hgx]
            simp [hax2]
        rw [hrest]
      · -- affected but not the survivor: deleted
        rw [if_pos ha, if_neg hid]
        have hsl : s ∈ l := by
          rcases List.mem_cons.mp hsI with he | hm
          · exact absurd (by rw [he]) hid
          · exact hm
        exact ih hnd.2 hsl
    · -- unaffected: kept, but filtered out of the affected set
      have ha2 : isAffected date_before_from date_after_to a = false := by
        simpa using ha
      rw [ha2]
      simp only [Bool.false_eq_true, if_false]
      rw [List.filter_cons_of_neg (by simp [ha2])]
      have hsl : s ∈ l := by
        rcases List.mem_cons.mp hsI with he | hm
        · exfalso
          rw [← he, hsA] at ha2
          exact Bool.noConfusion ha2
        · exact hm
      exact ih hnd.2 hsl

theorem pierce_merge_result_iff {intervals : List DownloadedInterval}
    {date_before_from date_after_to mf mt e : Int} {s : DownloadedInterval}
    (hsI : s ∈ intervals)
    (hsA : isAffected date_before_from date_after_to s = true)
    (hno : ∀ u ∈ intervals, isAffected date_before_from date_after_to u = false →
      ¬(u.date_from ≤ e ∧ e ≤ u.date_to)) :
    pierce (intervals.filterMap (fun di =>
      if isAffected date_before_from date_after_to di then
        if di.id = s.id then some ⟨di.id, mf, mt⟩ else none
      else some di)) e = true ↔ (mf ≤ e ∧ e ≤ mt) := by
  rw [pierce_iff]
  constructor
  · rintro ⟨x, hx, h1, h2⟩
    rcases mem_merge_characterize hx with ⟨hxI, hxna⟩ | hxM
    · exact absurd ⟨h1, h2⟩ (hno x hxI hxna)
    · subst hxM
      exact ⟨h1, h2⟩
  · rintro ⟨h1, h2⟩
    exact ⟨⟨s.id, mf, mt⟩, merged_mem_result hsI hsA, h1, h2⟩

theorem pierce_merge_result_of_contains {intervals : List DownloadedInterval}
    {date_before_from date_after_to mf mt e : Int} {s : DownloadedInterval}
    (hsI : s ∈ intervals)
    (hsA : isAffected date_before_from date_after_to s = true)
    (h1 : mf ≤ e) (h2 : e ≤ mt) :
    pierce (intervals.filterMap (fun di =>
      if isAffected date_before_from date_after_to di then
        if di.id = s.id then some ⟨di.id, mf, mt⟩ else none
      else some di)) e = true := by
  rw [pierce_iff]
  exact ⟨⟨s.id, mf, mt⟩, merged_mem_result hsI hsA, h1, h2⟩

/-- A pierced left edge forces some affected interval to start at or before
that edge. -/
theorem minFrom_le_edge_of_pierced {intervals : List DownloadedInterval}
    {wf wt ma : Int}
    (haff : affectedIntervals intervals (wf - 1) (wt + 1) ≠ [])
    (hma : minIntervalFrom (affectedIntervals intervals (wf - 1) (wt + 1))
      = some ma)
    (hpl : pierce intervals (wf - 1) = true) : ma ≤ wf - 1 := by
  rw [pierce_iff] at hpl
  obtain ⟨v, hv, h1, h2⟩ := hpl
  by_cases hva : v.date_from ≤ wt + 1
  · have hvA : v ∈ affectedIntervals intervals (wf - 1) (wt + 1) :=
      mem_affectedIntervals.mpr ⟨hv, isAffected_iff.mpr ⟨h2, hva⟩⟩
    have := minIntervalFrom_le hma v hvA
    omega
  · obtain ⟨a, ha⟩ := List.exists_mem_of_ne_nil _ haff
    have haA := isAffected_iff.mp (mem_affectedIntervals.mp ha).2
    have := minIntervalFrom_le hma a ha
    omega

/-- A pierced right edge forces some affected interval to end at or after
that edge. -/
theorem maxTo_ge_edge_of_pierced {intervals : List DownloadedInterval}
    {wf wt mb : Int}
    (haff : affectedIntervals intervals (wf - 1) (wt + 1) ≠ [])
    (hmb : maxIntervalTo (affectedIntervals intervals (wf - 1) (wt + 1))
      = some mb)
    (hpr : pierce intervals (wt + 1) = true) : wt + 1 ≤ mb := by
  rw [pierce_iff] at hpr
  obtain ⟨v, hv, h1, h2⟩ := hpr
  by_cases hva : wf - 1 ≤ v.date_to
  · have hvA : v ∈ affectedIntervals intervals (wf - 1) (wt + 1) :=
      mem_affectedIntervals.mpr ⟨hv, isAffected_iff.mpr ⟨hva, h1⟩⟩
    have := maxIntervalTo_ge hmb v hvA
    omega
  · obtain ⟨a, ha⟩ := List.exists_mem_of_ne_nil _ haff
    have haA := isAffected_iff.mp (mem_affectedIntervals.mp ha).2
    have := maxIntervalTo_ge hmb a ha
    omega

theorem merged_from_le_edge_of_pierced {intervals : List DownloadedInterval}
    {history_data : List InstrumentValue} {wf wt : Int}
    (haff : affectedIntervals intervals (wf - 1) (wt + 1) ≠ [])
    (hpl : pierce intervals (wf - 1) = true) :
    merged_from intervals history_data wf wt ≤ wf - 1 := by
  cases hma : minIntervalFrom (affectedIntervals intervals (wf - 1) (wt + 1)) with
  | none => exact absurd (minIntervalFrom_eq_none_iff.mp hma) haff
  | some ma =>
    have hle := minFrom_le_edge_of_pierced haff hma hpl
    rw [merged_from_eq_base_of_pierced hpl, hma]
    simp only [Option.getD_some]
    exact le_trans (min_le_right _ _) hle

theorem merged_to_ge_edge_of_pierced {intervals : List DownloadedInterval}
    {history_data : List InstrumentValue} {wf wt : Int}
    (haff : affectedIntervals intervals (wf - 1) (wt + 1) ≠ [])
    (hpr : pierce intervals (wt + 1) = true) :
    wt + 1 ≤ merged_to intervals history_data wf wt := by
  cases hmb : maxIntervalTo (affectedIntervals intervals (wf - 1) (wt + 1)) with
  | none => exact absurd (maxIntervalTo_eq_none_iff.mp hmb) haff
  | some mb =>
    have hge := maxTo_ge_edge_of_pierced haff hmb hpr
    rw [merged_to_eq_base_of_pierced hpr, hmb]
    simp only [Option.getD_some]
    exact le_trans hge (le_max_right _ _)

theorem merged_from_idem {intervals : List DownloadedInterval}
    {history_data : List InstrumentValue} {wf wt : Int} {s : DownloadedInterval}
    (hwf : ∀ mn, minHistoryDate history_data = some mn → wf ≤ mn)
    (hwt : ∀ mx, maxHistoryDate history_data = some mx → mx ≤ wt)
    (haff : affectedIntervals intervals (wf - 1) (wt + 1) ≠ [])
    (hnd : (intervals.map DownloadedInterval.id).Nodup)
    (hs : survivor (affectedIntervals intervals (wf - 1) (wt + 1)) = some s)
    (hcond : history_data ≠ [] ∨
      (pierce intervals (wf - 1) = true ∧ pierce intervals (wt + 1) = true)) :
    merged_from (intervals.filterMap (fun di =>
      if isAffected (wf - 1) (wt + 1) di then
        if di.id = s.id then
          some ⟨di.id, merged_from intervals history_data wf wt,
            merged_to intervals history_data wf wt⟩
        else none
      else some di)) history_data wf wt =
      merged_from intervals history_data wf wt := by
  have hsmem := survivor_mem hs
  have hsI : s ∈ intervals := (mem_affectedIntervals.mp hsmem).1
  have hsA : isAffected (wf - 1) (wt + 1) s = true :=
    (mem_affectedIntervals.mp hsmem).2
  have hebmt : wf - 1 ≤ merged_to intervals history_data wf wt :=
    merged_to_ge_edge haff hwf
  have hmfea : merged_from intervals history_data wf wt ≤ wt + 1 :=
    merged_from_le_edge haff hwt
  have haffM : isAffected (wf - 1) (wt + 1)
      (⟨s.id, merged_from intervals history_data wf wt,
        merged_to intervals history_data wf wt⟩ : DownloadedInterval) = true :=
    isAffected_iff.mpr ⟨hebmt, hmfea⟩
  have haffR := merge_affected_singleton hnd hsI hsA haffM
  have hminR : minIntervalFrom ((intervals.filterMap (fun di =>
      if isAffected (wf - 1) (wt + 1) di then
        if di.id = s.id then
          some ⟨di.id, merged_from intervals history_data wf wt,
            merged_to intervals history_data wf wt⟩
        else none
      else some di)).filter (isAffected (wf - 1) (wt + 1)))
      = some (merged_from intervals history_data wf wt) := by
    rw [haffR]
    rfl
  by_cases hpl : pierce intervals (wf - 1) = true
  · cases hma : minIntervalFrom (affectedIntervals intervals (wf - 1) (wt + 1)) with
    | none => exact absurd (minIntervalFrom_eq_none_iff.mp hma) haff
    | some ma =>
      have hmf_le : merged_from intervals history_data wf wt ≤ wf - 1 :=
        merged_from_le_edge_of_pierced haff hpl
      have hplR : pierce (intervals.filterMap (fun di =>
          if isAffected (wf - 1) (wt + 1) di then
            if di.id = s.id then
              some ⟨di.id, merged_from intervals history_data wf wt,
                merged_to intervals history_data wf wt⟩
            else none
          else some di)) (wf - 1) = true :=
        pierce_merge_result_of_contains hsI hsA hmf_le hebmt
      rw [merged_from_eq_base_of_pierced hplR]
      rw [show affectedIntervals (intervals.filterMap (fun di =>
          if isAffected (wf - 1) (wt + 1) di then
            if di.id = s.id then
              some ⟨di.id, merged_from intervals history_data wf wt,
                merged_to intervals history_data wf wt⟩
            else none
          else some di)) (wf - 1) (wt + 1) =
        [⟨s.id, merged_from intervals history_data wf wt,
          merged_to intervals history_data wf wt⟩] from haffR]
      simp only [minIntervalFrom, Option.getD_some]
      exact min_eq_right (by omega)
  · have hpl2 : pierce intervals (wf - 1) = false := by simpa using hpl
    have hne : history_data ≠ [] := by
      rcases hcond with h | ⟨hp, _⟩
      · exact h
      · rw [hpl2] at hp
        exact Bool.noConfusion hp
    cases hmn : minHistoryDate history_data with
    | none => exact absurd (minHistoryDate_eq_none_iff.mp hmn) hne
    | some mn =>
      cases hmx : maxHistoryDate history_data with
      | none => exact absurd (maxHistoryDate_eq_none_iff.mp hmx) hne
      | some mx =>
        have hwfmn := hwf mn hmn
        have hmxwt := hwt mx hmx
        have hmnmx := minHistoryDate_le_maxHistoryDate hmn hmx
        have hno_eb : ∀ u ∈ intervals, isAffected (wf - 1) (wt + 1) u = false →
            ¬(u.date_from ≤ wf - 1 ∧ wf - 1 ≤ u.date_to) := by
          intro u hu huna hcont
          have hA : isAffected (wf - 1) (wt + 1) u = true :=
            isAffected_iff.mpr ⟨hcont.2, by omega⟩
          rw [huna] at hA
          exact Bool.noConfusion hA
        have hplR_iff := @pierce_merge_result_iff intervals (wf - 1) (wt + 1)
          (merged_from intervals history_data wf wt)
          (merged_to intervals history_data wf wt) (wf - 1) s
          hsI hsA hno_eb
        by_cases hlt : wf < mn
        · have hmf_eq : merged_from intervals history_data wf wt = mn :=
            merged_from_eq_tight hpl2 hmn hlt
          have hplR : pierce (intervals.filterMap (fun di =>
              if isAffected (wf - 1) (wt + 1) di then
                if di.id = s.id then
                  some ⟨di.id, merged_from intervals history_data wf wt,
                    merged_to intervals history_data wf wt⟩
                else none
              else some di)) (wf - 1) = false := by
            by_contra hc
            have hcc := (hplR_iff.mp (by simpa using hc)).1
            rw [hmf_eq] at hcc
            omega
          rw [merged_from_eq_tight hplR hmn hlt, hmf_eq]
        · cases hma : minIntervalFrom
              (affectedIntervals intervals (wf - 1) (wt + 1)) with
          | none => exact absurd (minIntervalFrom_eq_none_iff.mp hma) haff
          | some ma =>
            have hmf_eq : merged_from intervals history_data wf wt
                = min wf ma := by
              rw [merged_from_eq_base_of_ge hmn hlt, hma]
              simp
            by_cases hmalt : ma < wf
            · have hmf_le : merged_from intervals history_data wf wt
                  ≤ wf - 1 := by
                rw [hmf_eq, min_eq_right (by omega : ma ≤ wf)]
                omega
              have hplR : pierce (intervals.filterMap (fun di =>
                  if isAffected (wf - 1) (wt + 1) di then
                    if di.id = s.id then
                      some ⟨di.id, merged_from intervals history_data wf wt,
                        merged_to intervals history_data wf wt⟩
                    else none
                  else some di)) (wf - 1) = true :=
                pierce_merge_result_of_contains hsI hsA hmf_le hebmt
              rw [merged_from_eq_base_of_pierced hplR]
              rw [show affectedIntervals (intervals.filterMap (fun di =>
                  if isAffected (wf - 1) (wt + 1) di then
                    if di.id = s.id then
                      some ⟨di.id, merged_from intervals history_data wf wt,
                        merged_to intervals history_data wf wt⟩
                    else none
                  else some di)) (wf - 1) (wt + 1) =
                [⟨s.id, merged_from intervals history_data wf wt,
                  merged_to intervals history_data wf wt⟩] from haffR]
              simp only [minIntervalFrom, Option.getD_some]
              refine min_eq_right ?_
              rw [hmf_eq]
              exact min_le_left _ _
            · have hmf_eq2 : merged_from intervals history_data wf wt = wf := by
                rw [hmf_eq]
                exact min_eq_left (by omega)
              have hplR : pierce (intervals.filterMap (fun di =>
                  if isAffected (wf - 1) (wt + 1) di then
                    if di.id = s.id then
                      some ⟨di.id, merged_from intervals history_data wf wt,
                        merged_to intervals history_data wf wt⟩
                    else none
                  else some di)) (wf - 1) = false := by
                by_contra hc
                have hcc := (hplR_iff.mp (by simpa using hc)).1
                rw [hmf_eq2] at hcc
                omega
              rw [merged_from_eq_base_of_ge hmn hlt]
              rw [show affectedIntervals (intervals.filterMap (fun di =>
                  if isAffected (wf - 1) (wt + 1) di then
                    if di.id = s.id then
                      some ⟨di.id, merged_from intervals history_data wf wt,
                        merged_to intervals history_data wf wt⟩
                    else none
                  else some di)) (wf - 1) (wt + 1) =
                [⟨s.id, merged_from intervals history_data wf wt,
                  merged_to intervals history_data wf wt⟩] from haffR]
              simp only [minIntervalFrom, Option.getD_some]
              rw [hmf_eq2]
              exact min_self _

theorem merged_to_idem {intervals : List DownloadedInterval}
    {history_data : List InstrumentValue} {wf wt : Int} {s : DownloadedInterval}
    (hwf : ∀ mn, minHistoryDate history_data = some mn → wf ≤ mn)
    (hwt : ∀ mx, maxHistoryDate history_data = some mx → mx ≤ wt)
    (haff : affectedIntervals intervals (wf - 1) (wt + 1) ≠ [])
    (hnd : (intervals.map DownloadedInterval.id).Nodup)
    (hs : survivor (affectedIntervals intervals (wf - 1) (wt + 1)) = some s)
    (hcond : history_data ≠ [] ∨
      (pierce intervals (wf - 1) = true ∧ pierce intervals (wt + 1) = true)) :
    merged_to (intervals.filterMap (fun di =>
      if isAffected (wf - 1) (wt + 1) di then
        if di.id = s.id then
          some ⟨di.id, merged_from intervals history_data wf wt,
            merged_to intervals history_data wf wt⟩
        else none
      else some di)) history_data wf wt =
      merged_to intervals history_data wf wt := by
  have hsmem := survivor_mem hs
  have hsI : s ∈ intervals := (mem_affectedIntervals.mp hsmem).1
  have hsA : isAffected (wf - 1) (wt + 1) s = true :=
    (mem_affectedIntervals.mp hsmem).2
  have hebmt : wf - 1 ≤ merged_to intervals history_data wf wt :=
    merged_to_ge_edge haff hwf
  have hmfea : merged_from intervals history_data wf wt ≤ wt + 1 :=
    merged_from_le_edge haff hwt
  have haffM : isAffected (wf - 1) (wt + 1)
      (⟨s.id, merged_from intervals history_data wf wt,
        merged_to intervals history_data wf wt⟩ : DownloadedInterval) = true :=
    isAffected_iff.mpr ⟨hebmt, hmfea⟩
  have haffR := merge_affected_singleton hnd hsI hsA haffM
  have hmaxR : maxIntervalTo ((intervals.filterMap (fun di =>
      if isAffected (wf - 1) (wt + 1) di then
        if di.id = s.id then
          some ⟨di.id, merged_from intervals history_data wf wt,
            merged_to intervals history_data wf wt⟩
        else none
      else some di)).filter (isAffected (wf - 1) (wt + 1)))
      = some (merged_to intervals history_data wf wt) := by
    rw [haffR]
    rfl
  by_cases hpr : pierce intervals (wt + 1) = true
  · cases hmb : maxIntervalTo (affectedIntervals intervals (wf - 1) (wt + 1)) with
    | none => exact absurd (maxIntervalTo_eq_none_iff.mp hmb) haff
    | some mb =>
      have hmt_ge : wt + 1 ≤ merged_to intervals history_data wf wt :=
        merged_to_ge_edge_of_pierced haff hpr
      have hprR : pierce (intervals.filterMap (fun di =>
          if isAffected (wf - 1) (wt + 1) di then
            if di.id = s.id then
              some ⟨di.id, merged_from intervals history_data wf wt,
                merged_to intervals history_data wf wt⟩
            else none
          else some di)) (wt + 1) = true :=
        pierce_merge_result_of_contains hsI hsA hmfea hmt_ge
      rw [merged_to_eq_base_of_pierced hprR]
      rw [show affectedIntervals (intervals.filterMap (fun di =>
          if isAffected (wf - 1) (wt + 1) di then
            if di.id = s.id then
              some ⟨di.id, merged_from intervals history_data wf wt,
                merged_to intervals history_data wf wt⟩
            else none
          else some di)) (wf - 1) (wt + 1) =
        [⟨s.id, merged_from intervals history_data wf wt,
          merged_to intervals history_data wf wt⟩] from haffR]
      simp only [maxIntervalTo, Option.getD_some]
      exact max_eq_right (by omega)
  · have hpr2 : pierce intervals (wt + 1) = false := by simpa using hpr
    have hne : history_data ≠ [] := by
      rcases hcond with h | ⟨_, hp⟩
      · exact h
      · rw [hpr2] at hp
        exact Bool.noConfusion hp
    cases hmn : minHistoryDate history_data with
    | none => exact absurd (minHistoryDate_eq_none_iff.mp hmn) hne
    | some mn =>
      cases hmx : maxHistoryDate history_data with
      | none => exact absurd (maxHistoryDate_eq_none_iff.mp hmx) hne
      | some mx =>
        have hwfmn := hwf mn hmn
        have hmxwt := hwt mx hmx
        have hmnmx := minHistoryDate_le_maxHistoryDate hmn hmx
        have hno_ea : ∀ u ∈ intervals, isAffected (wf - 1) (wt + 1) u = false →
            ¬(u.date_from ≤ wt + 1 ∧ wt + 1 ≤ u.date_to) := by
          intro u hu huna hcont
          have hA : isAffected (wf - 1) (wt + 1) u = true :=
            isAffected_iff.mpr ⟨by omega, hcont.1⟩
          rw [huna] at hA
          exact Bool.noConfusion hA
        have hprR_iff := @pierce_merge_result_iff intervals (wf - 1) (wt + 1)
          (merged_from intervals history_data wf wt)
          (merged_to intervals history_data wf wt) (wt + 1) s
          hsI hsA hno_ea
        by_cases hlt : mx < wt
        · have hmt_eq : merged_to intervals history_data wf wt = mx :=
            merged_to_eq_tight hpr2 hmx hlt
          have hprR : pierce (intervals.filterMap (fun di =>
              if isAffected (wf - 1) (wt + 1) di then
                if di.id = s.id then
                  some ⟨di.id, merged_from intervals history_data wf wt,
                    merged_to intervals history_data wf wt⟩
                else none
              else some di)) (wt + 1) = false := by
            by_contra hc
            have hcc := (hprR_iff.mp (by simpa using hc)).2
            rw [hmt_eq] at hcc
            omega
          rw [merged_to_eq_tight hprR hmx hlt, hmt_eq]
        · cases hmb : maxIntervalTo
              (affectedIntervals intervals (wf - 1) (wt + 1)) with
          | none => exact absurd (maxIntervalTo_eq_none_iff.mp hmb) haff
          | some mb =>
            have hmt_eq : merged_to intervals history_data wf wt
                = max wt mb := by
              rw [merged_to_eq_base_of_ge hmx hlt, hmb]
              simp
            by_cases hmbgt : wt < mb
            · have hmt_ge : wt + 1 ≤ merged_to intervals history_data wf wt := by
                rw [hmt_eq, max_eq_right (by omega : wt ≤ mb)]
                omega
              have hprR : pierce (intervals.filterMap (fun di =>
                  if isAffected (wf - 1) (wt + 1) di then
                    if di.id = s.id then
                      some ⟨di.id, merged_from intervals history_data wf wt,
                        merged_to intervals history_data wf wt⟩
                    else none
                  else some di)) (wt + 1) = true :=
                pierce_merge_result_of_contains hsI hsA hmfea hmt_ge
              rw [merged_to_eq_base_of_pierced hprR]
              rw [show affectedIntervals (intervals.filterMap (fun di =>
                  if isAffected (wf - 1) (wt + 1) di then
                    if di.id = s.id then
                      some ⟨di.id, merged_from intervals history_data wf wt,
                        merged_to intervals history_data wf wt⟩
                    else none
                  else some di)) (wf - 1) (wt + 1) =
                [⟨s.id, merged_from intervals history_data wf wt,
                  merged_to intervals history_data wf wt⟩] from haffR]
              simp only [maxIntervalTo, Option.getD_some]
              refine max_eq_right ?_
              rw [hmt_eq]
              exact le_max_left _ _
            · have hmt_eq2 : merged_to intervals history_data wf wt = wt := by
                rw [hmt_eq]
                exact max_eq_left (by omega)
              have hprR : pierce (intervals.filterMap (fun di =>
                  if isAffected (wf - 1) (wt + 1) di then
                    if di.id = s.id then
                      some ⟨di.id, merged_from intervals history_data wf wt,
                        merged_to intervals history_data wf wt⟩
                    else none
                  else some di)) (wt + 1) = false := by
                by_contra hc
                have hcc := (hprR_iff.mp (by simpa using hc)).2
                rw [hmt_eq2] at hcc
                omega
              rw [merged_to_eq_base_of_ge hmx hlt]
              rw [show affectedIntervals (intervals.filterMap (fun di =>
                  if isAffected (wf - 1) (wt + 1) di then
                    if di.id = s.id then
                      some ⟨di.id, merged_from intervals history_data wf wt,
                        merged_to intervals history_data wf wt⟩
                    else none
                  else some di)) (wf - 1) (wt + 1) =
                [⟨s.id, merged_from intervals history_data wf wt,
                  merged_to intervals history_data wf wt⟩] from haffR]
              simp only [maxIntervalTo, Option.getD_some]
              rw [hmt_eq2]
              exact max_self _

/-- Reconciling the interval set twice with the same widened arguments is
the same as reconciling once. -/
theorem reconcileIntervals_idem
    {intervals : List DownloadedInterval} {nextId : Nat}
    {history_data : List InstrumentValue} {wf wt : Int}
    (hwf : ∀ mn, minHistoryDate history_data = some mn → wf ≤ mn)
    (hwt : ∀ mx, maxHistoryDate history_data = some mx → mx ≤ wt)
    (hnd : (intervals.map DownloadedInterval.id).Nodup) :
    reconcileIntervals (reconcileIntervals intervals nextId history_data wf wt).1
      (reconcileIntervals intervals nextId history_data wf wt).2
      history_data wf wt
      = reconcileIntervals intervals nextId history_data wf wt := by
  by_cases haff : affectedIntervals intervals (wf - 1) (wt + 1) = []
  · cases hmn : minHistoryDate history_data with
    | none =>
      have hnil := minHistoryDate_eq_none_iff.mp hmn
      subst hnil
      rw [reconcileIntervals_no_affected_no_data nextId haff]
      exact reconcileIntervals_no_affected_no_data nextId haff
    | some mn =>
      cases hmx : maxHistoryDate history_data with
      | none =>
        rw [maxHistoryDate_eq_none_iff.mp hmx] at hmn
        simp [minHistoryDate] at hmn
      | some mx =>
        have hne : history_data ≠ [] := fun he => by
          rw [he] at hmn
          simp [minHistoryDate] at hmn
        have hwfmn := hwf mn hmn
        have hmxwt := hwt mx hmx
        have hmnmx := minHistoryDate_le_maxHistoryDate hmn hmx
        rw [reconcileIntervals_create nextId haff hmn hmx]
        have haffF : intervals.filter (isAffected (wf - 1) (wt + 1)) = [] := haff
        have hAffNew : isAffected (wf - 1) (wt + 1)
            (⟨nextId, mn, mx⟩ : DownloadedInterval) = true :=
          isAffected_iff.mpr ⟨by show wf - 1 ≤ mx; omega, by show mn ≤ wt + 1; omega⟩
        have haff2 : affectedIntervals (intervals ++ [⟨nextId, mn, mx⟩])
            (wf - 1) (wt + 1) = [⟨nextId, mn, mx⟩] := by
          show (intervals ++ [(⟨nextId, mn, mx⟩ : DownloadedInterval)]).filter
            (isAffected (wf - 1) (wt + 1)) = [⟨nextId, mn, mx⟩]
          rw [List.filter_append, haffF, List.filter_cons_of_pos hAffNew]
          simp
        have haff2ne : affectedIntervals (intervals ++ [⟨nextId, mn, mx⟩])
            (wf - 1) (wt + 1) ≠ [] := by
          rw [haff2]
          simp
        have hs2 : survivor (affectedIntervals (intervals ++ [⟨nextId, mn, mx⟩])
            (wf - 1) (wt + 1)) = some ⟨nextId, mn, mx⟩ := by
          rw [haff2]
          rfl
        rw [reconcileIntervals_merge (nextId + 1) haff2ne (Or.inl hne) hs2]
        have hp2 : pierce (intervals ++ [⟨nextId, mn, mx⟩]) (wf - 1) = false := by
          by_contra hc
          have hc2 : pierce (intervals ++ [⟨nextId, mn, mx⟩]) (wf - 1) = true := by
            simpa using hc
          rw [pierce_iff] at hc2
          obtain ⟨di, hdi, h1, h2⟩ := hc2
          rcases List.mem_append.mp hdi with hdI | hdN
          · have hmemf : di ∈ intervals.filter (isAffected (wf - 1) (wt + 1)) :=
              List.mem_filter.mpr ⟨hdI, isAffected_iff.mpr ⟨h2, by omega⟩⟩
            rw [haffF] at hmemf
            simp at hmemf
          · simp only [List.mem_singleton] at hdN
            subst hdN
            have h1b : mn ≤ wf - 1 := h1
            omega
        have hq2 : pierce (intervals ++ [⟨nextId, mn, mx⟩]) (wt + 1) = false := by
          by_contra hc
          have hc2 : pierce (intervals ++ [⟨nextId, mn, mx⟩]) (wt + 1) = true := by
            simpa using hc
          rw [pierce_iff] at hc2
          obtain ⟨di, hdi, h1, h2⟩ := hc2
          rcases List.mem_append.mp hdi with hdI | hdN
          · have hmemf : di ∈ intervals.filter (isAffected (wf - 1) (wt + 1)) :=
              List.mem_filter.mpr ⟨hdI, isAffected_iff.mpr ⟨by omega, h1⟩⟩
            rw [haffF] at hmemf
            simp at hmemf
          · simp only [List.mem_singleton] at hdN
            subst hdN
            have h2b : wt + 1 ≤ mx := h2
            omega
        have hmf2 : merged_from (intervals ++ [⟨nextId, mn, mx⟩])
            history_data wf wt = mn := by
          by_cases hlt : wf < mn
          · exact merged_from_eq_tight hp2 hmn hlt
          · rw [merged_from_eq_base_of_ge hmn hlt, haff2]
            rw [show minIntervalFrom [(⟨nextId, mn, mx⟩ : DownloadedInterval)]
              = some mn from rfl]
            simp only [Option.getD_some]
            have heq : wf = mn := by omega
            rw [heq, min_self]
        have hmt2 : merged_to (intervals ++ [⟨nextId, mn, mx⟩])
            history_data wf wt = mx := by
          by_cases hlt : mx < wt
          · exact merged_to_eq_tight hq2 hmx hlt
          · rw [merged_to_eq_base_of_ge hmx hlt, haff2]
            rw [show maxIntervalTo [(⟨nextId, mn, mx⟩ : DownloadedInterval)]
              = some mx from rfl]
            simp only [Option.getD_some]
            have heq : wt = mx := by omega
            rw [heq, max_self]
        rw [hmf2, hmt2]
        have hall : ∀ x ∈ intervals ++ [⟨nextId, mn, mx⟩],
            (fun di => if isAffected (wf - 1) (wt + 1) di then
              if di.id = (⟨nextId, mn, mx⟩ : DownloadedInterval).id then
                some ⟨di.id, mn, mx⟩
              else none
            else some di) x = some x := by
          intro x hx
          rcases List.mem_append.mp hx with hxI | hxN
          · have hxna : isAffected (wf - 1) (wt + 1) x = false := by
              have := List.filter_eq_nil_iff.mp haffF x hxI
              simpa using this
            simp [hxna]
          · simp only [List.mem_singleton] at hxN
            subst hxN
            simp [hAffNew]
        rw [filterMap_eq_self_of _ _ hall]
  · cases hs : survivor (affectedIntervals intervals (wf - 1) (wt + 1)) with
    | none => exact absurd (survivor_eq_none_iff.mp hs) haff
    | some s =>
      have hsmem := survivor_mem hs
      have hsI : s ∈ intervals := (mem_affectedIntervals.mp hsmem).1
      have hsA : isAffected (wf - 1) (wt + 1) s = true :=
        (mem_affectedIntervals.mp hsmem).2
      by_cases hmerge : history_data ≠ [] ∨
          (pierce intervals (wf - 1) = true ∧ pierce intervals (wt + 1) = true)
      · rw [reconcileIntervals_merge nextId haff hmerge hs]
        have hebmt : wf - 1 ≤ merged_to intervals history_data wf wt :=
          merged_to_ge_edge haff hwf
        have hmfea : merged_from intervals history_data wf wt ≤ wt + 1 :=
          merged_from_le_edge haff hwt
        have haffM : isAffected (wf - 1) (wt + 1)
            (⟨s.id, merged_from intervals history_data wf wt,
              merged_to intervals history_data wf wt⟩ : DownloadedInterval)
            = true :=
          isAffected_iff.mpr ⟨hebmt, hmfea⟩
        have haffR := merge_affected_singleton hnd hsI hsA haffM
        have haffRne : affectedIntervals (intervals.filterMap (fun di =>
            if isAffected (wf - 1) (wt + 1) di then
              if di.id = s.id then
                some ⟨di.id, merged_from intervals history_data wf wt,
                  merged_to intervals history_data wf wt⟩
              else none
            else some di)) (wf - 1) (wt + 1) ≠ [] := by
          rw [show affectedIntervals (intervals.filterMap (fun di =>
              if isAffected (wf - 1) (wt + 1) di then
                if di.id = s.id then
                  some ⟨di.id, merged_from intervals history_data wf wt,
                    merged_to intervals history_data wf wt⟩
                else none
              else some di)) (wf - 1) (wt + 1) =
            [⟨s.id, merged_from intervals history_data wf wt,
              merged_to intervals history_data wf wt⟩] from haffR]
          simp
        have hsR : survivor (affectedIntervals (intervals.filterMap (fun di =>
            if isAffected (wf - 1) (wt + 1) di then
              if di.id = s.id then
                some ⟨di.id, merged_from intervals history_data wf wt,
                  merged_to intervals history_data wf wt⟩
              else none
            else some di)) (wf - 1) (wt + 1)) =
            some ⟨s.id, merged_from intervals history_data wf wt,
              merged_to intervals history_data wf wt⟩ := by
          rw [show affectedIntervals (intervals.filterMap (fun di =>
              if isAffected (wf - 1) (wt + 1) di then
                if di.id = s.id then
                  some ⟨di.id, merged_from intervals history_data wf wt,
                    merged_to intervals history_data wf wt⟩
                else none
              else some di)) (wf - 1) (wt + 1) =
            [⟨s.id, merged_from intervals history_data wf wt,
              merged_to intervals history_data wf wt⟩] from haffR]
          rfl
        have hcond2 : history_data ≠ [] ∨
            (pierce (intervals.filterMap (fun di =>
              if isAffected (wf - 1) (wt + 1) di then
                if di.id = s.id then
                  some ⟨di.id, merged_from intervals history_data wf wt,
                    merged_to intervals history_data wf wt⟩
                else none
              else some di)) (wf - 1) = true ∧
             pierce (intervals.filterMap (fun di =>
              if isAffected (wf - 1) (wt + 1) di then
                if di.id = s.id then
                  some ⟨di.id, merged_from intervals history_data wf wt,
                    merged_to intervals history_data wf wt⟩
                else none
              else some di)) (wt + 1) = true) := by
          rcases hmerge with hne | ⟨hpl, hpr⟩
          · exact Or.inl hne
          · refine Or.inr ⟨?_, ?_⟩
            · exact pierce_merge_result_of_contains hsI hsA
                (merged_from_le_edge_of_pierced haff hpl) hebmt
            · exact pierce_merge_result_of_contains hsI hsA hmfea
                (merged_to_ge_edge_of_pierced haff hpr)
        rw [reconcileIntervals_merge nextId haffRne hcond2 hsR]
        rw [merged_from_idem hwf hwt haff hnd hs hmerge,
          merged_to_idem hwf hwt haff hnd hs hmerge]
        have hall : ∀ x ∈ intervals.filterMap (fun di =>
            if isAffected (wf - 1) (wt + 1) di then
              if di.id = s.id then
                some ⟨di.id, merged_from intervals history_data wf wt,
                  merged_to intervals history_data wf wt⟩
              else none
            else some di),
            (fun di => if isAffected (wf - 1) (wt + 1) di then
              if di.id = (⟨s.id, merged_from intervals history_data wf wt,
                  merged_to intervals history_data wf wt⟩ :
                    DownloadedInterval).id then
                some ⟨di.id, merged_from intervals history_data wf wt,
                  merged_to intervals history_data wf wt⟩
              else none
            else some di) x = some x := by
          intro x hx
          rcases mem_merge_characterize hx with ⟨hxI, hxna⟩ | hxM
          · simp [hxna]
          · subst hxM
            simp [haffM]
        rw [filterMap_eq_self_of _ _ hall]
      · rw [not_or, not_not] at hmerge
        obtain ⟨hhd, hnp⟩ := hmerge
        subst hhd
        rw [reconcileIntervals_skip nextId haff hnp]
        exact reconcileIntervals_skip nextId haff hnp

theorem save_history_data_idem {st : ExporterState}
    (history_data : List InstrumentValue) (date_from date_to : Int)
    (hnd : (st.intervals.map DownloadedInterval.id).Nodup)
    (hkeys : (momentKeys st.points).Nodup) :
    save_history_data (save_history_data st history_data date_from date_to)
      history_data date_from date_to =
      save_history_data st history_data date_from date_to := by
  have hwf : ∀ mn, minHistoryDate history_data = some mn →
      widen_from history_data date_from ≤ mn :=
    fun mn hmn => widen_from_le_minDate hmn date_from
  have hwt : ∀ mx, maxHistoryDate history_data = some mx →
      mx ≤ widen_to history_data date_to :=
    fun mx hmx => widen_to_ge_maxDate hmx date_to
  have hri := @reconcileIntervals_idem st.intervals st.nextId history_data
    (widen_from history_data date_from) (widen_to history_data date_to)
    hwf hwt hnd
  simp only [save_history_data_def]
  simp only [ExporterState.mk.injEq]
  exact ⟨congrArg Prod.fst hri, update_or_create_history_data_idem history_data hkeys,
    congrArg Prod.snd hri⟩

/-! ### Helpers for the remaining claims -/

theorem merge_performed_empty_iff {intervals : List DownloadedInterval}
    {date_from date_to : Int}
    (haff : affectedIntervals intervals (date_from - 1) (date_to + 1) ≠ []) :
    merge_performed intervals [] date_from date_to = false ↔
      ¬(pierce intervals (date_from - 1) = true ∧
        pierce intervals (date_to + 1) = true) := by
  simp only [merge_performed, widen_from_nil, widen_to_nil]
  rw [show (affectedIntervals intervals (date_from - 1) (date_to + 1)).isEmpty
    = false from by simpa [List.isEmpty_iff] using haff]
  cases hp : pierce intervals (date_from - 1) <;>
    cases hq : pierce intervals (date_to + 1) <;> simp

theorem save_skip_eq {st : ExporterState} {date_from date_to : Int}
    (haff : affectedIntervals st.intervals (date_from - 1) (date_to + 1) ≠ [])
    (hnp : ¬(pierce st.intervals (date_from - 1) = true ∧
      pierce st.intervals (date_to + 1) = true)) :
    save_history_data st [] date_from date_to = st := by
  rw [save_history_data_def, widen_from_nil, widen_to_nil,
    reconcileIntervals_skip st.nextId haff hnp]
  rfl

theorem save_empty_merge_mem_iff {st : ExporterState} {date_from date_to : Int}
    {s : DownloadedInterval} {ma mb : Int}
    (haff : affectedIntervals st.intervals (date_from - 1) (date_to + 1) ≠ [])
    (hpl : pierce st.intervals (date_from - 1) = true)
    (hpr : pierce st.intervals (date_to + 1) = true)
    (hs : survivor (affectedIntervals st.intervals (date_from - 1) (date_to + 1))
      = some s)
    (hma : minIntervalFrom
      (affectedIntervals st.intervals (date_from - 1) (date_to + 1)) = some ma)
    (hmb : maxIntervalTo
      (affectedIntervals st.intervals (date_from - 1) (date_to + 1)) = some mb) :
    ∀ di, di ∈ (save_history_data st [] date_from date_to).intervals ↔
      ((di ∈ st.intervals ∧
        isAffected (date_from - 1) (date_to + 1) di = false) ∨
       di = ⟨s.id, min date_from ma, max date_to mb⟩) := by
  intro di
  rw [save_history_data_def, widen_from_nil, widen_to_nil,
    reconcileIntervals_merge st.nextId haff (Or.inr ⟨hpl, hpr⟩) hs]
  have hmf : merged_from st.intervals [] date_from date_to
      = min date_from ma := by
    rw [merged_from_eq_base_of_none (by rfl), hma]
    rfl
  have hmt : merged_to st.intervals [] date_from date_to
      = max date_to mb := by
    rw [merged_to_eq_base_of_none (by rfl), hmb]
    rfl
  rw [hmf, hmt]
  constructor
  · intro hx
    exact mem_merge_characterize hx
  · rintro (⟨hdi, hna⟩ | he)
    · exact unaffected_mem_result hdi hna
    · subst he
      exact merged_mem_result
        ((mem_affectedIntervals.mp (survivor_mem hs)).1)
        ((mem_affectedIntervals.mp (survivor_mem hs)).2)

theorem widen_from_widen (history_data : List InstrumentValue) (date_from : Int) :
    widen_from history_data (widen_from history_data date_from)
      = widen_from history_data date_from := by
  unfold widen_from
  cases hmn : minHistoryDate history_data with
  | none => rfl
  | some mn =>
    by_cases hlt : mn < date_from
    · simp [hlt]
    · simp [hlt]

theorem widen_to_widen (history_data : List InstrumentValue) (date_to : Int) :
    widen_to history_data (widen_to history_data date_to)
      = widen_to history_data date_to := by
  unfold widen_to
  cases hmx : maxHistoryDate history_data with
  | none => rfl
  | some mx =>
    by_cases hlt : date_to < mx
    · simp [hlt]
    · simp [hlt]

theorem save_eq_save_widened (st : ExporterState)
    (history_data : List InstrumentValue) (date_from date_to : Int) :
    save_history_data st history_data date_from date_to =
      save_history_data st history_data (widen_from history_data date_from)
        (widen_to history_data date_to) := by
  rw [save_history_data_def, save_history_data_def,
    widen_from_widen, widen_to_widen]

theorem foldl_max_ge_init (l : List (Int × Int)) (a : Int) :
    a ≤ l.foldl (fun acc p => max acc p.2) a := by
  induction l generalizing a with
  | nil => exact le_refl _
  | cons p rest ih =>
    calc a ≤ max a p.2 := le_max_left _ _
    _ ≤ rest.foldl (fun acc p => max acc p.2) (max a p.2) := ih _

theorem foldl_max_ge_mem {l : List (Int × Int)} {p : Int × Int} (hp : p ∈ l)
    (a : Int) : p.2 ≤ l.foldl (fun acc q => max acc q.2) a := by
  induction l generalizing a with
  | nil => simp at hp
  | cons q rest ih =>
    rcases List.mem_cons.mp hp with he | hm
    · subst he
      calc p.2 ≤ max a p.2 := le_max_right _ _
      _ ≤ rest.foldl (fun acc q => max acc q.2) (max a p.2) :=
        foldl_max_ge_init _ _
    · exact ih hm _

theorem foldl_max_eq_init_or_mem (l : List (Int × Int)) (a : Int) :
    l.foldl (fun acc q => max acc q.2) a = a ∨
      ∃ p ∈ l, l.foldl (fun acc q => max acc q.2) a = p.2 := by
  induction l generalizing a with
  | nil => exact Or.inl rfl
  | cons q rest ih =>
    rcases ih (max a q.2) with h | ⟨p, hp, he⟩
    · rcases le_total q.2 a with hle | hle
      · left
        rw [List.foldl_cons, h]
        omega
      · right
        exact ⟨q, List.mem_cons_self _ _, by rw [List.foldl_cons, h]; omega⟩
    · right
      exact ⟨p, List.mem_cons_of_mem _ hp, by rw [List.foldl_cons]; exact he⟩

theorem last_downloaded_date_ge {downloaded_intervals : List (Int × Int)}
    {p : Int × Int} (hp : p ∈ downloaded_intervals) :
    p.2 ≤ last_downloaded_date downloaded_intervals := by
  cases downloaded_intervals with
  | nil => simp at hp
  | cons iv rest =>
    unfold last_downloaded_date
    rcases List.mem_cons.mp hp with he | hm
    · subst he
      exact foldl_max_ge_init _ _
    · exact foldl_max_ge_mem hm _

theorem last_downloaded_date_mem {downloaded_intervals : List (Int × Int)}
    (hne : downloaded_intervals ≠ []) :
    ∃ p ∈ downloaded_intervals, last_downloaded_date downloaded_intervals = p.2 := by
  cases downloaded_intervals with
  | nil => exact absurd rfl hne
  | cons iv rest =>
    unfold last_downloaded_date
    rcases foldl_max_eq_init_or_mem rest iv.2 with h | ⟨p, hp, he⟩
    · exact ⟨iv, List.mem_cons_self _ _, h⟩
    · exact ⟨p, List.mem_cons_of_mem _ hp, he⟩

/-! ### Claims -/

/-- C1: starting from an empty interval set, after any finite sequence of
`save_history_data` calls the stored `DownloadedInterval` set contains no
two distinct intervals that overlap or touch: for any two distinct stored
intervals `A` and `B`, either `A.date_to + 1 < B.date_from` or
`B.date_to + 1 < A.date_from`. -/
theorem save_history_nonoverlap_invariant
    (points : List (Moment × ℚ)) (nextId : Nat)
    (calls : List (List InstrumentValue × Int × Int))
    (A B : DownloadedInterval)
    (hA : A ∈ (applyCalls ⟨[], points, nextId⟩ calls).intervals)
    (hB : B ∈ (applyCalls ⟨[], points, nextId⟩ calls).intervals)
    (hAB : A ≠ B) :
    A.date_to + 1 < B.date_from ∨ B.date_to + 1 < A.date_from := by
  have hinv0 : ReconcilerInvariant ⟨[], points, nextId⟩ :=
    ⟨by simp, by simp, by simp, by simp⟩
  obtain ⟨hval, hnd, hsep, hfresh⟩ := applyCalls_invariant hinv0 calls
  exact hsep A hA B hB (id_ne_of_ne hnd hA hB hAB)

/-- Witness for C1: two separate downloads (day 1 and day 10) leave two
stored intervals, and the theorem yields their separation. -/
theorem save_history_nonoverlap_invariant_witness :
    (⟨0, 1, 1⟩ : DownloadedInterval).date_to + 1 <
        (⟨1, 10, 10⟩ : DownloadedInterval).date_from ∨
      (⟨1, 10, 10⟩ : DownloadedInterval).date_to + 1 <
        (⟨0, 1, 1⟩ : DownloadedInterval).date_from :=
  save_history_nonoverlap_invariant [] 0
    [([⟨(1, 0), 1⟩], 1, 1), ([⟨(10, 0), 1⟩], 10, 10)]
    ⟨0, 1, 1⟩ ⟨1, 10, 10⟩ (by decide) (by decide) (by decide)

/-- C2: with empty `history_data` and a non-empty affected set, the merge is
skipped (and the state left unchanged) iff not both edges pierce existing
intervals; when both edges pierce, every stored interval of the result is
either an unaffected original or the single merged interval
`[min(claimed_from, min affected date_from), max(claimed_to, max affected
date_to)]`; in particular `[1,5]` and `[8,12]` with an empty probe over
`[6,7]` become exactly `[1,12]`. -/
theorem save_history_empty_points_merge_gating :
    (∀ (st : ExporterState) (date_from date_to : Int),
      affectedIntervals st.intervals (date_from - 1) (date_to + 1) ≠ [] →
      ((merge_performed st.intervals [] date_from date_to = false ↔
          ¬(pierce st.intervals (date_from - 1) = true ∧
            pierce st.intervals (date_to + 1) = true)) ∧
       (merge_performed st.intervals [] date_from date_to = false →
          save_history_data st [] date_from date_to = st) ∧
       (∀ (s : DownloadedInterval) (ma mb : Int),
          pierce st.intervals (date_from - 1) = true →
          pierce st.intervals (date_to + 1) = true →
          survivor (affectedIntervals st.intervals (date_from - 1)
            (date_to + 1)) = some s →
          minIntervalFrom (affectedIntervals st.intervals (date_from - 1)
            (date_to + 1)) = some ma →
          maxIntervalTo (affectedIntervals st.intervals (date_from - 1)
            (date_to + 1)) = some mb →
          ∀ di, di ∈ (save_history_data st [] date_from date_to).intervals ↔
            ((di ∈ st.intervals ∧
              isAffected (date_from - 1) (date_to + 1) di = false) ∨
             di = ⟨s.id, min date_from ma, max date_to mb⟩)))) ∧
    (save_history_data ⟨[⟨1, 1, 5⟩, ⟨2, 8, 12⟩], [], 3⟩ [] 6 7).intervals
      = [⟨1, 1, 12⟩] := by
  refine ⟨?_, by decide⟩
  intro st date_from date_to haff
  refine ⟨merge_performed_empty_iff haff, ?_, ?_⟩
  · intro hmp
    exact save_skip_eq haff ((merge_performed_empty_iff haff).mp hmp)
  · intro s ma mb hpl hpr hs hma hmb
    exact save_empty_merge_mem_iff haff hpl hpr hs hma hmb

/-- Witness for C2: in the merge-by-empty-probe example the merged interval
`[1,12]` is stored, by the membership characterization. -/
theorem save_history_empty_points_merge_gating_witness :
    (⟨1, 1, 12⟩ : DownloadedInterval) ∈
      (save_history_data ⟨[⟨1, 1, 5⟩, ⟨2, 8, 12⟩], [], 3⟩ [] 6 7).intervals :=
  ((save_history_empty_points_merge_gating.1 ⟨[⟨1, 1, 5⟩, ⟨2, 8, 12⟩], [], 3⟩ 6 7
      (by decide)).2.2 ⟨1, 1, 5⟩ 1 12 (by decide) (by decide) (by decide)
      (by decide) (by decide) ⟨1, 1, 12⟩).mpr (Or.inr (by decide))

/-- C3: when non-empty history is merged into a non-empty affected set, a
non-pierced left edge with minimum point date above the widened claimed
lower bound tightens the merged interval's `date_from` to that minimum
point date (symmetrically on the right); with no existing intervals, a
single point on day 3 claimed over `[1,5]` yields exactly `[3,3]`. -/
theorem save_history_edge_tightening :
    (∀ (st : ExporterState) (history_data : List InstrumentValue)
        (date_from date_to mn : Int) (s : DownloadedInterval),
      history_data ≠ [] →
      affectedIntervals st.intervals (widen_from history_data date_from - 1)
        (widen_to history_data date_to + 1) ≠ [] →
      survivor (affectedIntervals st.intervals
        (widen_from history_data date_from - 1)
        (widen_to history_data date_to + 1)) = some s →
      pierce st.intervals (widen_from history_data date_from - 1) = false →
      minHistoryDate history_data = some mn →
      widen_from history_data date_from < mn →
      ∃ di ∈ (save_history_data st history_data date_from date_to).intervals,
        di.id = s.id ∧ di.date_from = mn) ∧
    (∀ (st : ExporterState) (history_data : List InstrumentValue)
        (date_from date_to mx : Int) (s : DownloadedInterval),
      history_data ≠ [] →
      affectedIntervals st.intervals (widen_from history_data date_from - 1)
        (widen_to history_data date_to + 1) ≠ [] →
      survivor (affectedIntervals st.intervals
        (widen_from history_data date_from - 1)
        (widen_to history_data date_to + 1)) = some s →
      pierce st.intervals (widen_to history_data date_to + 1) = false →
      maxHistoryDate history_data = some mx →
      mx < widen_to history_data date_to →
      ∃ di ∈ (save_history_data st history_data date_from date_to).intervals,
        di.id = s.id ∧ di.date_to = mx) ∧
    (save_history_data ⟨[], [], 0⟩ [⟨(3, 0), 1⟩] 1 5).intervals = [⟨0, 3, 3⟩] := by
  refine ⟨?_, ?_, by decide⟩
  · intro st history_data date_from date_to mn s hne haff hs hpl hmn hlt
    rw [save_history_data_def,
      reconcileIntervals_merge st.nextId haff (Or.inl hne) hs]
    exact ⟨⟨s.id,
        merged_from st.intervals history_data (widen_from history_data date_from)
          (widen_to history_data date_to),
        merged_to st.intervals history_data (widen_from history_data date_from)
          (widen_to history_data date_to)⟩,
      merged_mem_result ((mem_affectedIntervals.mp (survivor_mem hs)).1)
        ((mem_affectedIntervals.mp (survivor_mem hs)).2),
      rfl, merged_from_eq_tight hpl hmn hlt⟩
  · intro st history_data date_from date_to mx s hne haff hs hpr hmx hlt
    rw [save_history_data_def,
      reconcileIntervals_merge st.nextId haff (Or.inl hne) hs]
    exact ⟨⟨s.id,
        merged_from st.intervals history_data (widen_from history_data date_from)
          (widen_to history_data date_to),
        merged_to st.intervals history_data (widen_from history_data date_from)
          (widen_to history_data date_to)⟩,
      merged_mem_result ((mem_affectedIntervals.mp (survivor_mem hs)).1)
        ((mem_affectedIntervals.mp (survivor_mem hs)).2),
      rfl, merged_to_eq_tight hpr hmx hlt⟩

/-- Witness for C3: merging a point on day 8 claimed over `[7,11]` into the
single interval `[12,15]` tightens the merged lower bound to day 8. -/
theorem save_history_edge_tightening_witness :
    ∃ di ∈ (save_history_data ⟨[⟨1, 12, 15⟩], [], 2⟩
      [⟨(8, 0), 1⟩] 7 11).intervals, di.id = 1 ∧ di.date_from = 8 :=
  save_history_edge_tightening.1 ⟨[⟨1, 12, 15⟩], [], 2⟩ [⟨(8, 0), 1⟩] 7 11 8
    ⟨1, 12, 15⟩ (by decide) (by decide) (by decide) (by decide) (by decide)
    (by decide)

/-- C4: for every starting state whose primary keys and stored moments are
unique (as the database constraints guarantee), calling `save_history_data`
twice with identical arguments yields the same state as calling it once. -/
theorem save_history_idempotent (st : ExporterState)
    (history_data : List InstrumentValue) (date_from date_to : Int)
    (hnd : (st.intervals.map DownloadedInterval.id).Nodup)
    (hkeys : (momentKeys st.points).Nodup) :
    save_history_data (save_history_data st history_data date_from date_to)
      history_data date_from date_to =
      save_history_data st history_data date_from date_to :=
  save_history_data_idem history_data date_from date_to hnd hkeys

/-- Witness for C4: reconciling a point on day 6 over `[6,7]` into
`[1,5], [8,12]` twice equals doing it once. -/
theorem save_history_idempotent_witness :
    save_history_data (save_history_data ⟨[⟨1, 1, 5⟩, ⟨2, 8, 12⟩], [], 3⟩
        [⟨(6, 0), 2⟩] 6 7) [⟨(6, 0), 2⟩] 6 7 =
      save_history_data ⟨[⟨1, 1, 5⟩, ⟨2, 8, 12⟩], [], 3⟩ [⟨(6, 0), 2⟩] 6 7 :=
  save_history_idempotent ⟨[⟨1, 1, 5⟩, ⟨2, 8, 12⟩], [], 3⟩ [⟨(6, 0), 2⟩] 6 7
    (by decide) (by decide)

/-- C5: an empty-points call whose affected set is empty changes nothing:
no interval is created and intervals, points and the key counter are left
exactly as they were. -/
theorem save_history_virgin_empty_probe (st : ExporterState)
    (date_from date_to : Int)
    (haff : affectedIntervals st.intervals (date_from - 1) (date_to + 1) = []) :
    save_history_data st [] date_from date_to = st := by
  rw [save_history_data_def, widen_from_nil, widen_to_nil,
    reconcileIntervals_no_affected_no_data st.nextId haff]
  rfl

/-- Witness for C5: an empty probe over `[10,12]` against no stored
intervals leaves the exporter state untouched. -/
theorem save_history_virgin_empty_probe_witness :
    save_history_data ⟨[], [((5, 0), 2)], 7⟩ [] 10 12
      = ⟨[], [((5, 0), 2)], 7⟩ :=
  save_history_virgin_empty_probe ⟨[], [((5, 0), 2)], 7⟩ 10 12 (by decide)

/-- C6: the claimed range is widened to cover the downloaded data — the
lower bound becomes the minimum point date when that is earlier, the upper
bound the maximum point date when that is later; `save_history_data`
behaves exactly as if called with the widened bounds, and the affected-set
selection uses precisely the edges `widened_from - 1` and `widened_to + 1`. -/
theorem save_history_claimed_range_widening :
    (∀ (history_data : List InstrumentValue) (date_from mn : Int),
      minHistoryDate history_data = some mn →
      ((mn < date_from → widen_from history_data date_from = mn) ∧
       (¬ mn < date_from → widen_from history_data date_from = date_from))) ∧
    (∀ (history_data : List InstrumentValue) (date_to mx : Int),
      maxHistoryDate history_data = some mx →
      ((date_to < mx → widen_to history_data date_to = mx) ∧
       (¬ date_to < mx → widen_to history_data date_to = date_to))) ∧
    (∀ (st : ExporterState) (history_data : List InstrumentValue)
        (date_from date_to : Int),
      save_history_data st history_data date_from date_to =
        save_history_data st history_data (widen_from history_data date_from)
          (widen_to history_data date_to)) ∧
    (∀ (st : ExporterState) (history_data : List InstrumentValue)
        (date_from date_to : Int) (di : DownloadedInterval),
      di ∈ affectedIntervals st.intervals
          (widen_from history_data date_from - 1)
          (widen_to history_data date_to + 1) ↔
        (di ∈ st.intervals ∧
          widen_from history_data date_from - 1 ≤ di.date_to ∧
          di.date_from ≤ widen_to history_data date_to + 1)) := by
  refine ⟨?_, ?_, ?_, ?_⟩
  · intro history_data date_from mn hmn
    constructor
    · intro hlt
      unfold widen_from
      rw [hmn]
      simp [hlt]
    · intro hge
      unfold widen_from
      rw [hmn]
      simp [hge]
  · intro history_data date_to mx hmx
    constructor
    · intro hlt
      unfold widen_to
      rw [hmx]
      simp [hlt]
    · intro hge
      unfold widen_to
      rw [hmx]
      simp [hge]
  · intro st history_data date_from date_to
    exact save_eq_save_widened st history_data date_from date_to
  · intro st history_data date_from date_to di
    rw [mem_affectedIntervals, isAffected_iff]

/-- Witness for C6: a point on day 3 claimed from day 5 widens the lower
bound down to day 3. -/
theorem save_history_claimed_range_widening_witness :
    widen_from [⟨(3, 0), 1⟩] 5 = 3 :=
  (save_history_claimed_range_widening.1 [⟨(3, 0), 1⟩] 5 3 (by decide)).1
    (by decide)

/-- C7: `is_actual` compares the latest `date_to` among the downloaded
intervals against the last working day: today minus 3 on a Monday, today
minus 2 on a Sunday, and today minus 1 otherwise; and
`last_downloaded_date` is the maximum stored `date_to`. -/
theorem actuality_evaluator_correct (today : Int)
    (downloaded_intervals : List (Int × Int)) :
    ((isoweekday today = 1 →
        (is_actual today downloaded_intervals = true ↔
          today - 3 ≤ last_downloaded_date downloaded_intervals)) ∧
     (isoweekday today = 7 →
        (is_actual today downloaded_intervals = true ↔
          today - 2 ≤ last_downloaded_date downloaded_intervals)) ∧
     (isoweekday today ≠ 1 → isoweekday today ≠ 7 →
        (is_actual today downloaded_intervals = true ↔
          today - 1 ≤ last_downloaded_date downloaded_intervals))) ∧
    ((∀ p ∈ downloaded_intervals,
        p.2 ≤ last_downloaded_date downloaded_intervals) ∧
     (downloaded_intervals ≠ [] →
        ∃ p ∈ downloaded_intervals,
          last_downloaded_date downloaded_intervals = p.2)) := by
  refine ⟨⟨?_, ?_, ?_⟩, fun p hp => last_downloaded_date_ge hp,
    last_downloaded_date_mem⟩
  · intro h1
    unfold is_actual last_working_day
    rw [h1]
    simp
  · intro h7
    unfold is_actual last_working_day
    rw [h7]
    simp
  · intro h1 h7
    unfold is_actual last_working_day
    rw [if_neg h1, if_neg h7]
    simp

/-- Witness for C7: day 8 is a Monday, so an interval reaching day 5
(the previous Friday) is still actual. -/
theorem actuality_evaluator_correct_witness :
    is_actual 8 [(1, 5)] = true :=
  ((actuality_evaluator_correct 8 [(1, 5)]).1.1 (by decide)).mpr (by decide)

/-- C8: `save_history_data` never deletes a history point: every stored
moment is still stored afterwards, every point whose moment is not in the
new history keeps its exact value, and every moment of the new history gets
its (last-written) new value. -/
theorem save_history_points_frame (st : ExporterState)
    (history_data : List InstrumentValue) (date_from date_to : Int) :
    (∀ m ∈ momentKeys st.points,
      m ∈ momentKeys (save_history_data st history_data date_from date_to).points) ∧
    (∀ p ∈ st.points, p.1 ∉ historyMoments history_data →
      p ∈ (save_history_data st history_data date_from date_to).points) ∧
    (∀ (m : Moment) (v : ℚ), histLastValue history_data m = some v →
      lookupMoment (save_history_data st history_data date_from date_to).points m
        = some v) := by
  refine ⟨?_, ?_, ?_⟩
  · intro m hm
    exact mem_momentKeys_update_or_create history_data hm
  · intro p hp hnm
    exact mem_update_or_create_of_not_mem_moments hp hnm
  · intro m v hv
    show lookupMoment (update_or_create_history_data st.points history_data) m
      = some v
    rw [lookupMoment_update_or_create, hv]

/-- Witness for C8: a pre-existing point at a moment not re-downloaded
survives the reconciliation unchanged. -/
theorem save_history_points_frame_witness :
    ((1, 0), (5 : ℚ)) ∈
      (save_history_data ⟨[], [((1, 0), 5)], 0⟩ [⟨(2, 0), 7⟩] 2 2).points :=
  (save_history_points_frame ⟨[], [((1, 0), 5)], 0⟩ [⟨(2, 0), 7⟩] 2 2).2.1
    ((1, 0), 5) (by decide) (by decide)

/-- C9: every aligned timestamp whose operator application fails is routed
through the caller-supplied error handler and that handler's value becomes
the output for the timestamp; composition is total (one output per aligned
timestamp, no exception escapes), and with the JSON compose view's stub
handler a division by zero yields the output value 0. -/
theorem compose_error_routing :
    (∀ (op : ComposeType) (on_error : ComposeErrorHandler)
        (aligned : List (Moment × ℚ × ℚ)) (m : Moment) (l r : ℚ)
        (e : ComposeArithmeticError),
      (m, l, r) ∈ aligned → compose_op op l r = Except.error e →
      (m, on_error e op m l r) ∈ composeAligned op on_error aligned) ∧
    (∀ (op : ComposeType) (on_error : ComposeErrorHandler)
        (aligned : List (Moment × ℚ × ℚ)),
      (composeAligned op on_error aligned).length = aligned.length) ∧
    (∀ (l : ℚ), compose_op ComposeType.divide l 0 = Except.error ⟨⟩) ∧
    (∀ (m : Moment) (l : ℚ),
      composeAligned ComposeType.divide return_stub_error_handler [(m, l, 0)]
        = [(m, 0)]) := by
  refine ⟨?_, ?_, ?_, ?_⟩
  · intro op on_error aligned m l r e hmem herr
    refine List.mem_map.mpr ⟨(m, l, r), hmem, ?_⟩
    show ((m, l, r).1, composePoint op on_error (m, l, r).1 l r) = _
    unfold composePoint
    rw [herr]
  · intro op on_error aligned
    exact List.length_map _ _
  · intro l
    unfold compose_op
    simp
  · intro m l
    unfold composeAligned composePoint
    simp only [List.map_cons, List.map_nil]
    rw [show compose_op ComposeType.divide l 0 = Except.error ⟨⟩ from by
      unfold compose_op; simp]
    rfl

/-- Witness for C9: dividing 5 by 0 routes through the stub handler and
produces the output value 0 for that timestamp. -/
theorem compose_error_routing_witness :
    ((1, 0), (0 : ℚ)) ∈ composeAligned ComposeType.divide
      return_stub_error_handler [((1, 0), 5, 0)] :=
  compose_error_routing.1 ComposeType.divide return_stub_error_handler
    [((1, 0), 5, 0)] (1, 0) 5 0 ⟨⟩ (by decide) (by unfold compose_op; simp)

/-- Counterexample to C10 as stated: a request with `date_from > date_to`
but an invalid `intraday` query value is answered with HTTP 400, not with
a normal JSON response carrying an empty data list. -/
theorem empty_window_counterexample :
    (2 : Int) > 1 ∧
    render_history_response (fun _ _ _ _ _ => []) (some ⟨"X", [((1, 0), 1)]⟩)
        2 1 "maybe" "no" = HttpResponse.badRequest ∧
    HttpResponse.badRequest ≠ HttpResponse.json [] := by
  refine ⟨by decide, rfl, by decide⟩

/-- C10 (amended): for every request to the history or compose JSON
endpoints whose boolean query parameters parse, whose compose operator (for
the compose endpoint) is valid, and whose exporter codes resolve, a window
with `date_from > date_to` is answered with a normal JSON response carrying
an empty data list, without invoking the resampler or composer (the result
is the same for every such function) and without any error. -/
theorem empty_window_amended
    (resample : List (Moment × ℚ) → Int → Int → Bool → Bool →
      List (Moment × ℚ))
    (composer : ComposeType → List (Moment × ℚ) → List (Moment × ℚ) →
      Int → Int → Bool → Bool → List (Moment × ℚ))
    (exporter exporter1 exporter2 : ViewExporter)
    (compose_type : ComposeType) (compose_type_string : String)
    (date_from date_to : Int) (intraday_param fill_gaps_param : String)
    (b1 b2 : Bool)
    (hp1 : parse_bool_param intraday_param = some b1)
    (hp2 : parse_bool_param fill_gaps_param = some b2)
    (hwin : date_from > date_to) :
    render_history_response resample (some exporter) date_from date_to
        intraday_param fill_gaps_param = HttpResponse.json [] ∧
    (parse_compose_type compose_type_string = some compose_type →
      render_compose_response composer (some exporter1) (some exporter2)
        compose_type_string date_from date_to intraday_param fill_gaps_param
        = HttpResponse.json []) := by
  constructor
  · unfold render_history_response
    rw [hp1, hp2]
    simp [hwin]
  · intro hct
    unfold render_compose_response
    rw [hp1, hp2, hct]
    simp [hwin]

/-- Witness for the amended C10: a well-formed request with an inverted
window gets the empty JSON data list on both endpoints. -/
theorem empty_window_amended_witness :
    render_history_response (fun _ _ _ _ _ => [((1, 0), 1)])
        (some ⟨"A", [((1, 0), 1)]⟩) 2 1 "yes" "no" = HttpResponse.json [] ∧
    render_compose_response (fun _ _ _ _ _ _ _ => [((1, 0), 1)])
        (some ⟨"A", [((1, 0), 1)]⟩) (some ⟨"B", []⟩) "divide" 2 1 "yes" "no"
        = HttpResponse.json [] := by
  have h := empty_window_amended (fun _ _ _ _ _ => [((1, 0), 1)])
    (fun _ _ _ _ _ _ _ => [((1, 0), 1)]) ⟨"A", [((1, 0), 1)]⟩
    ⟨"A", [((1, 0), 1)]⟩ ⟨"B", []⟩ ComposeType.divide "divide" 2 1 "yes" "no"
    true false rfl rfl (by decide)
  exact ⟨h.1, h.2 rfl⟩

end SaneFin
